import Mathlib

/-!
# RLVM operation dispatch engine (`src/machine/rloperation.h`)

A shallow embedding of the `RLOperation` type system: operand descriptors
(`IntConstant_T`, `Empty_T`, ...), the variadic `RLOpcode<Args...>`, the fixed
26-slot `RLOp_NormalOperation<A..Z>`, the property bag and the advance policy
of `RLOperation`, together with `Sys_MenuReturn` (`src/Modules/Module_Sys.hpp`),
`grpToRecCoordinates` (`src/Utilities/Graphics.hpp`), the message speed of
`TextSystem` (`src/Systems/Base/TextSystem.hpp`) and the recording and
replaying of a `TextPage` (`src/Systems/Base/TextPage.cpp`).

Conventions of the embedding.

* A C++ function that takes `unsigned int& position`, an output vector or
  `RLMachine&` by reference and may throw is a function returning the final
  value of every by-reference argument together with an `Except`: what a
  callee wrote through a reference before throwing stays written.
* The type variables `Mach` (the interpreter state, `RLMachine`), `Piece` (a
  parsed operand, `ExpressionPiece`), `Val` (the union of the descriptors'
  `type` typedefs) and `Exc` (what is thrown) stand for classes declared
  outside this header.
* A `std::tuple<typename Args::type...>` is a list of `Val`; a template
  parameter pack of descriptors is a list of `Descriptor`. That the handler's
  parameter types agree with the descriptors' `type`s is checked by the C++
  compiler and has no counterpart here.
* The cursor `position` is an `unsigned int`. `RLOpcode` and
  `RLOp_NormalOperation` only initialise it to 0 and hand it from one
  descriptor to the next; all arithmetic on it belongs to the descriptors. It
  is a natural number here.
-/

namespace RLVM

/-! ## Results of throwing calls with by-reference arguments -/

/-- Final state of `T::ParseParameters(position, input, output)`: the cursor,
the output vector, and whether the call returned or threw. -/
structure ParseResult (Piece Exc : Type) where
  position : Nat
  output : List Piece
  result : Except Exc Unit

/-- Final state of `T::getData(machine, p, position)`: the machine, the
cursor, and the returned value or the exception thrown. -/
structure EvalResult (Mach Exc α : Type) where
  machine : Mach
  position : Nat
  result : Except Exc α

/-- Final state of a handler call or of `Dispatch`: the machine and whether the
call returned or threw. -/
structure Outcome (Mach Exc : Type) where
  machine : Mach
  result : Except Exc Unit

/-- An operand descriptor: a type with the two static members `getData` and
`ParseParameters` (`IntConstant_T`, `StrConstant_T`, `Empty_T`, ...). -/
structure Descriptor (Mach Val Piece Exc : Type) where
  getData : Mach → List Piece → Nat → EvalResult Mach Exc Val
  ParseParameters :
    Nat → List String → List Piece → ParseResult Piece Exc

/-- The union of the `type` typedefs of the descriptors of `rloperation.h`:
`empty_struct` (`Empty_T`), `int` (`IntConstant_T`), `std::string`
(`StrConstant_T`) and the `vector` of an `Argc_T`. -/
inductive Value where
  | empty_struct
  | int (i : Int)
  | str (s : String)
  | vec (vs : List Value)
  deriving Repr, Inhabited

section Engine

variable {Mach Val Piece Exc : Type}

/-- `Empty_T`: `getData` returns `empty_struct()` and `ParseParameters` has an
empty body; neither touches its by-reference arguments. -/
def Empty_T : Descriptor Mach Value Piece Exc where
  getData := fun machine _p position => ⟨machine, position, .ok Value.empty_struct⟩
  ParseParameters := fun position _input output => ⟨position, output, .ok ()⟩

/-! ## `internal::ParseEachParameter` and `RLOpcode::ParseParameters` -/

/-- `internal::ParseEachParameter<T, Args...>`: the sentinel base case does
nothing; otherwise `T::ParseParameters` runs and the recursion continues on
`Args...` with the same three references. An exception thrown by `T` leaves
the function at once. -/
def ParseEachParameter :
    List (Descriptor Mach Val Piece Exc) → Nat → List String → List Piece →
      ParseResult Piece Exc
  | [], position, _, output => ⟨position, output, .ok ()⟩
  | T :: Args, position, input, output =>
    let r := T.ParseParameters position input output
    match r.result with
    | .error e => ⟨r.position, r.output, .error e⟩
    | .ok _ => ParseEachParameter Args r.position input r.output

/-- `RLOpcode<Args...>::ParseParameters`: a local cursor starting at 0, then
`ParseEachParameter<Args..., _sentinel_type>`. The cursor is a local variable;
its final value is kept in the result so that statements can refer to it. -/
def RLOpcode.ParseParameters (Args : List (Descriptor Mach Val Piece Exc))
    (input : List String) (output : List Piece) : ParseResult Piece Exc :=
  ParseEachParameter Args 0 input output

/-! ## `RLOpcode::Dispatch` -/

/-- The pack expansion `Args::getData(machine, parameters, position)...` inside
the braced initializer of the tuple in `RLOpcode::Dispatch`: the calls are
evaluated in the order in which they appear, all on the same `machine` and
`position`; the first exception abandons the rest. -/
def getDataPack :
    List (Descriptor Mach Val Piece Exc) → Mach → List Piece → Nat →
      EvalResult Mach Exc (List Val)
  | [], machine, _, position => ⟨machine, position, .ok []⟩
  | A :: Args, machine, parameters, position =>
    let a := A.getData machine parameters position
    match a.result with
    | .error e => ⟨a.machine, a.position, .error e⟩
    | .ok v =>
      let rest := getDataPack Args a.machine parameters a.position
      match rest.result with
      | .error e => ⟨rest.machine, rest.position, .error e⟩
      | .ok vs => ⟨rest.machine, rest.position, .ok (v :: vs)⟩

/-- `internal::make_indexes_impl<I, index_tuple<Indexes...>, Types...>`: each
type of the pack appends the running index `I` and increments it. -/
def make_indexes_impl {α : Type} : Nat → List Nat → List α → List Nat
  | _, Indexes, [] => Indexes
  | I, Indexes, _ :: Types => make_indexes_impl (I + 1) (Indexes ++ [I]) Types

/-- `internal::make_indexes<Types...>`. -/
def make_indexes {α : Type} (Types : List α) : List Nat :=
  make_indexes_impl 0 [] Types

/-- `RLOpcode::DispatchImpl`: `operator()(machine, std::get<Indexes>(args)...)`.
The handler `op` stands for the pure virtual `operator()`. `std::get<I>` with
an index outside the tuple does not compile; here such an index contributes
no argument. -/
def RLOpcode.DispatchImpl (op : Mach → List Val → Outcome Mach Exc)
    (machine : Mach) (args : List Val) (Indexes : List Nat) : Outcome Mach Exc :=
  op machine (Indexes.filterMap (fun I => args[I]?))

/-- `RLOpcode<Args...>::Dispatch`: a local cursor starting at 0, the tuple of
evaluated operands, then `DispatchImpl` with `make_indexes<Args...>`. An
exception thrown while the tuple is built leaves `Dispatch` before
`DispatchImpl` is reached. -/
def RLOpcode.Dispatch (Args : List (Descriptor Mach Val Piece Exc))
    (op : Mach → List Val → Outcome Mach Exc) (machine : Mach)
    (parameters : List Piece) : Outcome Mach Exc :=
  let t := getDataPack Args machine parameters 0
  match t.result with
  | .error e => ⟨t.machine, .error e⟩
  | .ok tuple => RLOpcode.DispatchImpl op t.machine tuple (make_indexes Args)

/-! ## The fixed 26-slot `RLOp_NormalOperation` -/

/-- One statement `T::ParseParameters(position, input, output);` in a sequence
of statements: it runs on what the statements before it left, and is skipped
when one of them has thrown. -/
def parseStmt (T : Descriptor Mach Val Piece Exc) (input : List String)
    (before : ParseResult Piece Exc) : ParseResult Piece Exc :=
  match before.result with
  | .error _ => before
  | .ok _ => T.ParseParameters before.position input before.output

/-- `RLOp_NormalOperation<A, ..., Z>::ParseParameters` (primary template): a
local cursor starting at 0 and the 26 statements `A::ParseParameters(...)` to
`Z::ParseParameters(...)`. -/
def RLOp_NormalOperation.ParseParameters
    (A B C D E F G H I J K L M N O P Q R S T U V W X Y Z :
      Descriptor Mach Val Piece Exc)
    (input : List String) (output : List Piece) : ParseResult Piece Exc :=
  let r : ParseResult Piece Exc := ⟨0, output, .ok ()⟩
  let r := parseStmt A input r
  let r := parseStmt B input r
  let r := parseStmt C input r
  let r := parseStmt D input r
  let r := parseStmt E input r
  let r := parseStmt F input r
  let r := parseStmt G input r
  let r := parseStmt H input r
  let r := parseStmt I input r
  let r := parseStmt J input r
  let r := parseStmt K input r
  let r := parseStmt L input r
  let r := parseStmt M input r
  let r := parseStmt N input r
  let r := parseStmt O input r
  let r := parseStmt P input r
  let r := parseStmt Q input r
  let r := parseStmt R input r
  let r := parseStmt S input r
  let r := parseStmt T input r
  let r := parseStmt U input r
  let r := parseStmt V input r
  let r := parseStmt W input r
  let r := parseStmt X input r
  let r := parseStmt Y input r
  let r := parseStmt Z input r
  r

/-- `RLOp_NormalOperation<>::ParseParameters`, the explicit specialization for
26 `Empty_T` parameters: an empty body. It declares no cursor; the result
carries 0 for it. -/
def RLOp_NormalOperation.ParseParameters_Empty
    (_input : List String) (output : List Piece) : ParseResult Piece Exc :=
  ⟨0, output, .ok ()⟩

/-- One element `A::getData(machine, parameters, position)` of the pack
expansion in `RLOpcode::Dispatch`, evaluated after the elements before it: it
runs on the machine and cursor they left and its value becomes the next tuple
component; it is not evaluated when one of them has thrown. -/
def getDataStmt (A : Descriptor Mach Val Piece Exc) (parameters : List Piece)
    (before : EvalResult Mach Exc (List Val)) : EvalResult Mach Exc (List Val) :=
  match before.result with
  | .error _ => before
  | .ok vs =>
    let a := A.getData before.machine parameters before.position
    match a.result with
    | .error e => ⟨a.machine, a.position, .error e⟩
    | .ok v => ⟨a.machine, a.position, .ok (vs ++ [v])⟩

/-- State of `RLOpcode::ParseParameters` when the `k`-th descriptor (counting
from 0) is about to run: the first `k` descriptors have run from cursor 0. -/
def parseStateAt (Args : List (Descriptor Mach Val Piece Exc)) (input : List String)
    (output : List Piece) (k : Nat) : ParseResult Piece Exc :=
  ParseEachParameter (Args.take k) 0 input output

/-- State of `RLOpcode::Dispatch` when the `k`-th descriptor (counting from 0)
is about to be evaluated: the first `k` descriptors have been evaluated from
cursor 0. -/
def evalStateAt (Args : List (Descriptor Mach Val Piece Exc)) (machine : Mach)
    (parameters : List Piece) (k : Nat) : EvalResult Mach Exc (List Val) :=
  getDataPack (Args.take k) machine parameters 0

/-- Modelled from the spec: `RLOp_Void_Void::Dispatch` is declared in
`rloperation.h` and defined outside it. The spec has an operation without
operands dispatch "the handler with zero arguments": the handler
`operator()(RLMachine&)` is called with the machine alone and the parameters
are not looked at. -/
def RLOp_Void_Void.Dispatch (op : Mach → Outcome Mach Exc) (machine : Mach)
    (_parameters : List Piece) : Outcome Mach Exc :=
  op machine

end Engine

/-! ## The property bag of `RLOperation` -/

/-- `RLOperation::Property`, a `std::pair<int, int>` of key and value. -/
abbrev Property := Int × Int

/-- `RLOperation::PropertyList`, a `std::vector<Property>`. -/
abbrev PropertyList := List Property

/-- The data members of `RLOperation` that the property bag uses:
`property_list_` is a `std::unique_ptr<PropertyList>`, `none` while no list has
been allocated. The owning `RLModule* module_` points into a class outside
this header and is not part of the model. -/
structure RLOperation where
  property_list_ : Option PropertyList
  name_ : String

/-- Modelled from the spec: the constructor `RLOperation::RLOperation()` is
declared in `rloperation.h` and defined outside it. A freshly constructed
operation has no property list yet and an empty name. -/
def RLOperation.new : RLOperation :=
  ⟨none, ""⟩

/-- Modelled from the spec: `RLOperation::FindProperty` is declared in
`rloperation.h` ("Searches for a property on this object") and defined
outside it. It returns the position of the first pair of the list whose key is
`property`, or `none` for the end iterator. -/
def FindProperty : PropertyList → Int → Option Nat
  | [], _ => none
  | p :: rest, property =>
    if p.1 = property then some 0
    else (FindProperty rest property).map (· + 1)

/-- Modelled from the spec: `RLOperation::SetProperty` is declared in
`rloperation.h` and defined outside it. The spec has it upsert into an
"ordered list of (integer key, integer value) pairs", "append/overwrite-based":
the list is created on first use, the value of an existing key is overwritten
in place, a new key is appended. The returned operation stands for the
returned `RLOperation*` (`this`). -/
def RLOperation.SetProperty (op : RLOperation) (property value : Int) :
    RLOperation :=
  let list := op.property_list_.getD []
  match FindProperty list property with
  | some i => { op with property_list_ := some (list.set i (property, value)) }
  | none => { op with property_list_ := some (list ++ [(property, value)]) }

/-- Modelled from the spec: `RLOperation::GetProperty(int property, int& value)`
is declared in `rloperation.h` and defined outside it. It returns whether the
key was found together with the final content of `value`: the stored value
when found, the caller's `value` untouched when not ("absent key reports not
found"), also while no list has been allocated. -/
def RLOperation.GetProperty (op : RLOperation) (property value : Int) :
    Bool × Int :=
  match op.property_list_ with
  | none => (false, value)
  | some list =>
    match FindProperty list property with
    | none => (false, value)
    | some i =>
      match list[i]? with
      | some p => (true, p.2)
      | none => (false, value)

/-- A sequence of `SetProperty(key, value)` calls on one operation, in list
order (the chained configuration `op->SetProperty(..)->SetProperty(..)`). -/
def RLOperation.SetProperties (op : RLOperation) (sets : List Property) :
    RLOperation :=
  sets.foldl (fun o s => o.SetProperty s.1 s.2) op

/-- The value given by the most recent call for `property` in a sequence of
`SetProperty` calls, if there is one. -/
def lastSet (sets : List Property) (property : Int) : Option Int :=
  (sets.reverse.find? (fun s => s.1 = property)).map (·.2)

/-! ## Descriptors and operation kinds defined outside the header -/

section Collaborators

variable {Mach Piece Exc : Type}

/-- What the descriptors use of classes that `rloperation.h` only includes
(`libreallive/expression.h`) and the exceptions they throw, taken as
parameters. -/
structure Collaborators (Mach Piece Exc : Type) where
  /-- Parsing of one token into an expression (`libreallive::GetData`); throws
  on a malformed token. -/
  GetData : String → Except Exc Piece
  /-- Evaluation of an expression to an integer against the machine
  (`ExpressionPiece::GetIntegerValue(RLMachine&)`): the machine it leaves and
  the value or the exception thrown. -/
  GetIntegerValue : Mach → Piece → Mach × Except Exc Int
  /-- The number of groups that the count expression of a repeated group
  stands for. It does not depend on the machine, so parse and evaluation read
  the same count. -/
  count : Piece → Except Exc Nat
  /-- The Parse Error thrown when a descriptor finds no token under the
  cursor. -/
  ParseError : Exc
  /-- The error thrown when a descriptor finds no expression under the
  cursor. -/
  EvaluateError : Exc

/-- Modelled from the spec: `IntConstant_T::ParseParameters` and
`IntConstant_T::getData` are declared in `rloperation.h` and defined outside
it. The spec has the Constant-Integer descriptor consume "exactly one token"
and append "one Expression", and evaluate "the Expression against interpreter
numeric state", returning an integer. The cursor is an `unsigned int` and
advances by one modulo 2^32. -/
def IntConstant_T (lib : Collaborators Mach Piece Exc) :
    Descriptor Mach Value Piece Exc where
  getData := fun machine p position =>
    match p[position]? with
    | none => ⟨machine, position, .error lib.EvaluateError⟩
    | some x =>
      let r := lib.GetIntegerValue machine x
      match r.2 with
      | .error e => ⟨r.1, position, .error e⟩
      | .ok i => ⟨r.1, (position + 1) % 4294967296, .ok (Value.int i)⟩
  ParseParameters := fun position input output =>
    match input[position]? with
    | none => ⟨position, output, .error lib.ParseError⟩
    | some t =>
      match lib.GetData t with
      | .error e => ⟨position, output, .error e⟩
      | .ok x => ⟨(position + 1) % 4294967296, output ++ [x], .ok ()⟩

/-- A token encodes the integer constant `a`: it parses to an expression that
evaluates to `a` on every machine and leaves the machine as it is. -/
def EncodesInt (lib : Collaborators Mach Piece Exc) (token : String) (piece : Piece)
    (a : Int) : Prop :=
  lib.GetData token = .ok piece
    ∧ ∀ machine, lib.GetIntegerValue machine piece = (machine, .ok a)

/-- Modelled from the spec: `Argc_T<X>` is named in the doc comment of
`rloperation.h` ("takes another type as a parameter", giving the handler a
`vector`) and defined outside it. The spec has the Repeated-Group descriptor
consume "one count token, then N groups of tokens per the wrapped descriptor
X" and return "an ordered sequence of X's evaluated type, length N, source
order preserved"; evaluation uses "the same count value read during parse"
without going back to the tokens, so the count expression is appended to the
output in front of the groups and read from there. -/
def Argc_T (lib : Collaborators Mach Piece Exc) (X : Descriptor Mach Value Piece Exc) :
    Descriptor Mach Value Piece Exc where
  getData := fun machine p position =>
    match p[position]? with
    | none => ⟨machine, position, .error lib.EvaluateError⟩
    | some c =>
      match lib.count c with
      | .error e => ⟨machine, position, .error e⟩
      | .ok N =>
        let r := getDataPack (List.replicate N X) machine p ((position + 1) % 4294967296)
        match r.result with
        | .error e => ⟨r.machine, r.position, .error e⟩
        | .ok vs => ⟨r.machine, r.position, .ok (Value.vec vs)⟩
  ParseParameters := fun position input output =>
    match input[position]? with
    | none => ⟨position, output, .error lib.ParseError⟩
    | some t =>
      match lib.GetData t with
      | .error e => ⟨position, output, .error e⟩
      | .ok c =>
        match lib.count c with
        | .error e => ⟨position, output, .error e⟩
        | .ok N =>
          ParseEachParameter (List.replicate N X) ((position + 1) % 4294967296) input
            (output ++ [c])

/-- Final state of a store handler `int operator()(RLMachine&, ...)`: the
machine and the returned integer or the exception thrown. -/
structure StoreResult (Mach Exc : Type) where
  machine : Mach
  result : Except Exc Int

/-- Modelled from the spec: `RLOp_Store<...>` is named in the doc comment of
`rloperation.h` ("which will automatically place the return value in the store
register") and defined outside it. The spec has both flavours "share the same
parse/evaluate protocol, differing only in whether the dispatch wrapper
captures a return value", the integer being written "into a dedicated
result/store slot after the call returns". `set_store_register` stands for the
machine's setter of the store register. -/
def RLOp_Store.Dispatch {Val : Type} (set_store_register : Mach → Int → Mach)
    (Args : List (Descriptor Mach Val Piece Exc))
    (op : Mach → List Val → StoreResult Mach Exc) (machine : Mach)
    (parameters : List Piece) : Outcome Mach Exc :=
  let t := getDataPack Args machine parameters 0
  match t.result with
  | .error e => ⟨t.machine, .error e⟩
  | .ok tuple =>
    let r := op t.machine ((make_indexes Args).filterMap (fun I => tuple[I]?))
    match r.result with
    | .error e => ⟨r.machine, .error e⟩
    | .ok store => ⟨set_store_register r.machine store, .ok ()⟩

/-- Modelled from the spec: the parse of a store operation is that of the void
flavour ("both flavors share the same parse/evaluate protocol"). -/
def RLOp_Store.ParseParameters {Val : Type} (Args : List (Descriptor Mach Val Piece Exc))
    (input : List String) (output : List Piece) : ParseResult Piece Exc :=
  RLOpcode.ParseParameters Args input output

/-- Modelled from the spec: `RLOp_SpecialCase::DispatchFunction` is declared in
`rloperation.h` and defined outside it. The spec has it hand "the raw,
unparsed instruction directly to the handler", the default advance not
applying; the comment on the class has it perform "no type checking, no
parameter conversion, and no implicit instruction pointer advancement". `Cmd`
is `libreallive::CommandElement`, `op` the pure virtual
`operator()(RLMachine&, const CommandElement&)`. -/
def RLOp_SpecialCase.DispatchFunction {Cmd : Type} (op : Mach → Cmd → Outcome Mach Exc)
    (machine : Mach) (f : Cmd) : Outcome Mach Exc :=
  op machine f

/-- Modelled from the spec: `RLOp_SpecialCase::ParseParameters` is declared in
`rloperation.h` and defined outside it. The spec has it perform "no generic
token decoding"; the comment on the declaration has it "simply" parse
"everything as data": every token, in input order, is parsed on its own and
the expression appended; a token that does not parse throws. The result is the
output vector and whether the call returned or threw. -/
def RLOp_SpecialCase.ParseParameters (lib : Collaborators Mach Piece Exc) :
    List String → List Piece → List Piece × Except Exc Unit
  | [], output => (output, .ok ())
  | t :: rest, output =>
    match lib.GetData t with
    | .error e => (output, .error e)
    | .ok x => RLOp_SpecialCase.ParseParameters lib rest (output ++ [x])

end Collaborators

/-! ## A sample descriptor -/

namespace Sample

/-- A descriptor in the style of the constant descriptors, over a machine that
is a log of effects: `ParseParameters` consumes the token under the cursor and
appends it as the expression, `getData` returns the expression under the
cursor as a string, advances the cursor and records the slot it read in the
machine. Either throws, touching nothing, when the cursor is past the end. -/
def Token : Descriptor (List Nat) Value String String where
  getData := fun machine p position =>
    match p[position]? with
    | some x => ⟨machine ++ [position], position + 1, .ok (Value.str x)⟩
    | none => ⟨machine, position, .error "out of range"⟩
  ParseParameters := fun position input output =>
    match input[position]? with
    | some t => ⟨position + 1, output ++ [t], .ok ()⟩
    | none => ⟨position, output, .error "out of range"⟩

/-- A handler that records the operands it is called with in the machine (the
number of operands, then 100) and returns. -/
def record (machine : List Nat) (args : List Value) : Outcome (List Nat) String :=
  ⟨machine ++ [args.length, 100], .ok ()⟩

end Sample

/-! ## `grpToRecCoordinates` (`src/Utilities/Graphics.hpp`) -/

/-- The value of an `int` expression whose mathematical value is `v`: 32-bit
two's complement, wrapping on overflow. -/
def wrapInt32 (v : Int) : Int :=
  (v + 2147483648) % 4294967296 - 2147483648

/-- The values an `int` can hold. -/
def IsInt32 (v : Int) : Prop :=
  -2147483648 ≤ v ∧ v < 2147483648

/-- The four parameters of `grpToRecCoordinates` when it returns: `x1` and `y1`
are its own copies, `x2` and `y2` what it wrote through the references. -/
structure GrpCoordinates where
  x1 : Int
  y1 : Int
  x2 : Int
  y2 : Int

/-- `grpToRecCoordinates(int x1, int y1, int& x2, int& y2)`:
`x2 = x2 - x1; y2 = y2 - y1;`. -/
def grpToRecCoordinates (x1 y1 x2 y2 : Int) : GrpCoordinates :=
  let x2 := wrapInt32 (x2 - x1)
  let y2 := wrapInt32 (y2 - y1)
  ⟨x1, y1, x2, y2⟩

/-! ## The message speed of `TextSystem` (`src/Systems/Base/TextSystem.hpp`) -/

/-- Conversion of an `int` to the plain `char` of `m_messageSpeed`. Whether
plain `char` is signed is left to the implementation by the language; it is
signed with the usual x86 and x86-64 compilers. The conversion keeps the low 8
bits. -/
def intToChar (char_is_signed : Bool) (i : Int) : Int :=
  if char_is_signed then (i + 128) % 256 - 128 else i % 256

/-- The member of `TextSystem` that holds the message speed, a `char`
("Message speed; range from 0 to 255"). -/
structure TextSystem where
  m_messageSpeed : Int

/-- `void setMessageSpeed(int i) { m_messageSpeed = i; }`. -/
def TextSystem.setMessageSpeed (char_is_signed : Bool) (sys : TextSystem) (i : Int) :
    TextSystem :=
  { sys with m_messageSpeed := intToChar char_is_signed i }

/-- `int messageSpeed() const { return m_messageSpeed; }`: the promotion of a
`char` to `int` keeps its value. -/
def TextSystem.messageSpeed (sys : TextSystem) : Int :=
  sys.m_messageSpeed

/-! ## The advance policy: virtual member functions by name -/

/-- The `virtual bool name()` member functions of a class, each with the value
its body returns: what a call through a reference to a base class dispatches
on. Names are C++ identifiers and are compared case included. -/
abbrev BoolVirtuals := List (String × Bool)

/-- A derived class that declares `virtual bool name() { return body; }`: the
declaration overrides the inherited member function of that name, or, when the
base classes have none of that name, adds a new member function. -/
def declareVirtual (base : BoolVirtuals) (name : String) (body : Bool) :
    BoolVirtuals :=
  if base.any (fun m => m.1 = name) then
    base.map (fun m => if m.1 = name then (name, body) else m)
  else
    base ++ [(name, body)]

/-- The call `operation.name()` on an object of the class; `none` when the
class has no member function of that name. -/
def callVirtual (cls : BoolVirtuals) (name : String) : Option Bool :=
  (cls.find? (fun m => m.1 = name)).map (·.2)

/-- Modelled from the spec: `RLOperation::AdvanceInstructionPointer` is
declared `virtual` in `rloperation.h` and defined outside it. The spec has the
advance policy "default true", and so has the comment on the declaration
("The default implmentation returns true"). -/
def RLOperation.virtuals : BoolVirtuals :=
  [("AdvanceInstructionPointer", true)]

/-- `RLOp_NormalOperation<>` and `RLOp_Void_Void` (`rloperation.h`) derive from
`RLOperation` and declare no `bool` member function. -/
def RLOp_Void_Void.virtuals : BoolVirtuals :=
  RLOperation.virtuals

/-- Modelled from the spec: the `RLOperation` and `RLOp_Void_Void` that
`Module_Sys.hpp` builds on are those of `MachineBase/RLOperation.hpp`, a header
of the same tree as `Module_Sys.hpp` and not under `src/`. The spec has every
operation expose the advance-policy query, "default true", which an operation
"may override to false". The member function carries the name under which
`Module_Sys.hpp` overrides it, in the lowerCamelCase in which that tree spells
its member functions. -/
def MachineBase.RLOp_Void_Void.virtuals : BoolVirtuals :=
  [("advanceInstructionPointer", true)]

/-- `Sys_MenuReturn` (`src/Modules/Module_Sys.hpp`) derives from the
`RLOp_Void_Void` of `MachineBase/RLOperation.hpp`, whose `virtual bool` member
functions are `base`, and declares
`virtual bool advanceInstructionPointer() { return false; }`. -/
def Sys_MenuReturn.virtuals (base : BoolVirtuals) : BoolVirtuals :=
  declareVirtual base "advanceInstructionPointer" false

/-- The advance-policy query of the engine on an operation: the call
`AdvanceInstructionPointer()` through the `RLOperation` contract. -/
def AdvanceInstructionPointer (cls : BoolVirtuals) : Option Bool :=
  callVirtual cls "AdvanceInstructionPointer"

/-- A class derived from `base` through a chain of classes, each declaring one
`virtual bool` member function, in order of derivation. -/
def deriveVirtuals (base : BoolVirtuals) (declared : List (String × Bool)) :
    BoolVirtuals :=
  declared.foldl (fun cls d => declareVirtual cls d.1 d.2) base

/-! ## Sample collaborators and handlers -/

namespace Sample

/-- The value of a token written in decimal digits, if it is one. -/
def decimal (s : String) : Option Nat :=
  match s.data with
  | [] => none
  | cs => cs.foldl (fun acc c => acc.bind (fun n =>
      if c.isDigit then some (10 * n + (c.toNat - 48)) else none)) (some 0)

/-- Sample collaborators: an expression is an integer constant, a token its
decimal notation, and the machine is the store register. -/
def lib : Collaborators Int Int String where
  GetData := fun t =>
    match decimal t with
    | some n => .ok (Int.ofNat n)
    | none => .error "malformed token"
  GetIntegerValue := fun machine piece => (machine, .ok piece)
  count := fun piece => if 0 ≤ piece then .ok piece.toNat else .error "negative count"
  ParseError := "parse error"
  EvaluateError := "evaluate error"

/-- The sum of three `int` operands, as a store handler: `Sum3(state, a, b, c)`
returns `a + b + c`. -/
def Sum3 (machine : Int) (args : List Value) : StoreResult Int String :=
  match args with
  | [Value.int a, Value.int b, Value.int c] => ⟨machine, .ok (wrapInt32 (a + b + c))⟩
  | _ => ⟨machine, .error "signature mismatch"⟩

/-- A jump: the handler of a special-case operation whose instruction is its
target; the machine is the instruction pointer. -/
def jump (_machine : Int) (target : Int) : Outcome Int String :=
  ⟨target, .ok ()⟩

end Sample

/-! ## `RLOp_NormalOperation` with defaulted template parameters -/

/-- `RLOp_NormalOperation<A1, ..., Ak>::ParseParameters` for `k ≤ 26` given
template arguments: every parameter that is not given takes its default
`Empty_T`. With no argument given all 26 parameters are `Empty_T` and the
explicit specialization is the one instantiated; otherwise the primary
template is. -/
def RLOp_NormalOperation.ParseParameters_defaulted {Mach Piece Exc : Type}
    (Args : List (Descriptor Mach Value Piece Exc)) (input : List String)
    (output : List Piece) : ParseResult Piece Exc :=
  match Args with
  | [] => RLOp_NormalOperation.ParseParameters_Empty input output
  | _ :: _ =>
    RLOp_NormalOperation.ParseParameters
      (Args.getD 0 Empty_T)
      (Args.getD 1 Empty_T)
      (Args.getD 2 Empty_T)
      (Args.getD 3 Empty_T)
      (Args.getD 4 Empty_T)
      (Args.getD 5 Empty_T)
      (Args.getD 6 Empty_T)
      (Args.getD 7 Empty_T)
      (Args.getD 8 Empty_T)
      (Args.getD 9 Empty_T)
      (Args.getD 10 Empty_T)
      (Args.getD 11 Empty_T)
      (Args.getD 12 Empty_T)
      (Args.getD 13 Empty_T)
      (Args.getD 14 Empty_T)
      (Args.getD 15 Empty_T)
      (Args.getD 16 Empty_T)
      (Args.getD 17 Empty_T)
      (Args.getD 18 Empty_T)
      (Args.getD 19 Empty_T)
      (Args.getD 20 Empty_T)
      (Args.getD 21 Empty_T)
      (Args.getD 22 Empty_T)
      (Args.getD 23 Empty_T)
      (Args.getD 24 Empty_T)
      (Args.getD 25 Empty_T)
      input output

/-! ## `TextPage` (`src/Systems/Base/TextPage.cpp`) -/

/-- The classes derived from `TextPageElement`, each with its data members. -/
inductive TextPageElement where
  | TextTextPageElement (list_of_chars_to_print_ next_char_ : String)
  | NamePageElement (name_ nextchar_ : String)
  | HardBreakElement
  | ResetIndentationElement
  | FontColourElement (color : Int)
  | SetToRightStartingColorElement
  | MarkRubyBeginElement
  | DisplayRubyTextElement (name_ : String)
  deriving DecidableEq, Repr

/-- `isTextElement()`: `TextPageElement` returns false and only
`TextTextPageElement` overrides it, returning true. -/
def TextPageElement.isTextElement : TextPageElement → Bool
  | .TextTextPageElement _ _ => true
  | _ => false

/-- `TextTextPageElement::append(c, next_char)`:
`list_of_chars_to_print_.append(c); next_char_ = next_char;`. -/
def TextTextPageElement.append (list_of_chars_to_print_ _next_char_ c next_char : String) :
    TextPageElement :=
  .TextTextPageElement (list_of_chars_to_print_ ++ c) next_char

/-- The data members of a `TextPage` other than the pointer `machine_`. -/
structure TextPage where
  window_num_ : Int
  number_of_chars_on_page_ : Int
  in_ruby_gloss_ : Bool
  elements_to_replay_ : List TextPageElement
  deriving DecidableEq, Repr

/-- What a `TextPage` reaches through `machine_`, outside this file and taken
as parameters: the state `World` behind the pointer (the machine, its system,
the text windows, the Gameexe) and the member functions that the page calls on
it, each as a transformation of that state. They are taken to return
normally. -/
structure TextWindowOps (World : Type) where
  /-- The lookup `machine_->system().text().textWindow(*machine_, window_num_)`. -/
  textWindow : World → Int → World
  /-- The call `window->displayChar(*machine_, c, next_char)` and its result. -/
  displayChar : World → Int → String → String → World × Bool
  /-- The call `window->setName(*machine_, name, next_char)`. -/
  setName : World → Int → String → String → World
  /-- The call `window->hardBrake()`. -/
  hardBrake : World → Int → World
  /-- The call `window->resetIndentation()`. -/
  resetIndentation : World → Int → World
  /-- The call `window->setFontColor(gameexe("COLOR_TABLE", color))`. -/
  setFontColor : World → Int → Int → World
  /-- The call `window->markRubyBegin()`. -/
  markRubyBegin : World → Int → World
  /-- The call `window->displayRubyText(*machine_, utf8str)`. -/
  displayRubyText : World → Int → String → World
  /-- Whether `gameexe("COLOR_TABLE", color).exists()`. -/
  colorExists : World → Int → Bool
  /-- The helper `printTextToFunction(fun, charsToPrint, nextCharForFinal)`. It
  reaches the page only through the function it is given, which is
  `character_impl` bound to the page and touches nothing but the state behind
  `machine_`. -/
  printTextToFunction :
    (String → String → World → World × Bool) → String → String → World → World

/-- A page together with the state behind its `machine_` pointer. -/
structure PageState (World : Type) where
  world : World
  page : TextPage

/-- What `TextPage::character` can run into at
`dynamic_cast<TextTextPageElement&>(elements_to_replay_.back())`: `back()` of
an empty list, or a last element of another class (`std::bad_cast`). -/
inductive PageError where
  | back_of_empty
  | bad_cast
  deriving DecidableEq, Repr

/-- Final state of `TextPage::character`: the state behind `machine_`, the
page, and the returned flag or what stopped the call. -/
structure CharacterResult (World : Type) where
  world : World
  page : TextPage
  result : Except PageError Bool

section TextPageOps

variable {World : Type}

/-- `TextPage::character_impl`: the window's `displayChar`. -/
def TextPage.character_impl (ops : TextWindowOps World) (st : PageState World)
    (c next_char : String) : PageState World × Bool :=
  let r := ops.displayChar (ops.textWindow st.world st.page.window_num_)
    st.page.window_num_ c next_char
  (⟨r.1, st.page⟩, r.2)

/-- `TextPage::name_impl`. -/
def TextPage.name_impl (ops : TextWindowOps World) (st : PageState World)
    (name next_char : String) : PageState World :=
  ⟨ops.setName (ops.textWindow st.world st.page.window_num_) st.page.window_num_
    name next_char, st.page⟩

/-- `TextPage::hard_brake_impl`. -/
def TextPage.hard_brake_impl (ops : TextWindowOps World) (st : PageState World) :
    PageState World :=
  ⟨ops.hardBrake (ops.textWindow st.world st.page.window_num_) st.page.window_num_,
    st.page⟩

/-- `TextPage::reset_indentation_impl`. -/
def TextPage.reset_indentation_impl (ops : TextWindowOps World)
    (st : PageState World) : PageState World :=
  ⟨ops.resetIndentation (ops.textWindow st.world st.page.window_num_)
    st.page.window_num_, st.page⟩

/-- `TextPage::font_colour_impl`. -/
def TextPage.font_colour_impl (ops : TextWindowOps World) (st : PageState World)
    (color : Int) : PageState World :=
  ⟨ops.setFontColor (ops.textWindow st.world st.page.window_num_)
    st.page.window_num_ color, st.page⟩

/-- `TextPage::mark_ruby_begin_impl`: the window's `markRubyBegin`, then
`in_ruby_gloss_ = true`. -/
def TextPage.mark_ruby_begin_impl (ops : TextWindowOps World)
    (st : PageState World) : PageState World :=
  ⟨ops.markRubyBegin (ops.textWindow st.world st.page.window_num_)
    st.page.window_num_, { st.page with in_ruby_gloss_ := true }⟩

/-- `TextPage::display_ruby_text_impl`: the window's `displayRubyText`, then
`in_ruby_gloss_ = false`. -/
def TextPage.display_ruby_text_impl (ops : TextWindowOps World)
    (st : PageState World) (utf8str : String) : PageState World :=
  ⟨ops.displayRubyText (ops.textWindow st.world st.page.window_num_)
    st.page.window_num_ utf8str, { st.page with in_ruby_gloss_ := false }⟩

/-- `TextPage::set_to_right_starting_color_impl`: the window is looked up; on
a page that is not the active one the font colour is set to entry 254 of the
colour table when that entry exists. -/
def TextPage.set_to_right_starting_color_impl (ops : TextWindowOps World)
    (st : PageState World) (is_active_page : Bool) : PageState World :=
  let world := ops.textWindow st.world st.page.window_num_
  if !is_active_page then
    if ops.colorExists world 254 then
      ⟨ops.setFontColor world st.page.window_num_ 254, st.page⟩
    else ⟨world, st.page⟩
  else ⟨world, st.page⟩

/-- The virtual `replayElement(page, is_active_page)` of each element class. A
text element with no characters prints nothing; `size()` of a string is zero
exactly when it has no character. -/
def TextPageElement.replayElement (ops : TextWindowOps World) (e : TextPageElement)
    (st : PageState World) (is_active_page : Bool) : PageState World :=
  match e with
  | .TextTextPageElement list_of_chars_to_print_ next_char_ =>
    if list_of_chars_to_print_.length ≠ 0 then
      ⟨ops.printTextToFunction
          (fun c next_char world =>
            ((TextPage.character_impl ops ⟨world, st.page⟩ c next_char).1.world,
              (TextPage.character_impl ops ⟨world, st.page⟩ c next_char).2))
          list_of_chars_to_print_ next_char_ st.world,
        st.page⟩
    else st
  | .NamePageElement name_ nextchar_ => TextPage.name_impl ops st name_ nextchar_
  | .HardBreakElement => TextPage.hard_brake_impl ops st
  | .ResetIndentationElement => TextPage.reset_indentation_impl ops st
  | .FontColourElement color => TextPage.font_colour_impl ops st color
  | .SetToRightStartingColorElement =>
    TextPage.set_to_right_starting_color_impl ops st is_active_page
  | .MarkRubyBeginElement => TextPage.mark_ruby_begin_impl ops st
  | .DisplayRubyTextElement name_ => TextPage.display_ruby_text_impl ops st name_

/-- The `for_each` of `TextPage::replay` over a range of elements: `replayElement`
is called on each element from first to last, on the page and with the flag
bound into the function object. -/
def for_each_replayElement (ops : TextWindowOps World) :
    List TextPageElement → PageState World → Bool → PageState World
  | [], st, _ => st
  | e :: rest, st, is_active_page =>
    for_each_replayElement ops rest (e.replayElement ops st is_active_page)
      is_active_page

/-- `TextPage::replay(is_active_page)`: `for_each` from
`elements_to_replay_.begin()` to `elements_to_replay_.end()`. -/
def TextPage.replay (ops : TextWindowOps World) (st : PageState World)
    (is_active_page : Bool) : PageState World :=
  for_each_replayElement ops st.page.elements_to_replay_ st is_active_page

/-- State of `TextPage::replay` when element `k` (counting from 0) is about to
be replayed: the first `k` elements have been replayed. -/
def replayStateAt (ops : TextWindowOps World) (st : PageState World)
    (is_active_page : Bool) (k : Nat) : PageState World :=
  for_each_replayElement ops (st.page.elements_to_replay_.take k) st is_active_page

/-- The first statement under `if(rendered)` in `TextPage::character`: a new
`TextTextPageElement` is pushed when the list is empty or its last element is
not a text element. -/
def pushTextElementIfNeeded (elements : List TextPageElement) : List TextPageElement :=
  match elements.getLast? with
  | none => elements ++ [.TextTextPageElement "" ""]
  | some last =>
    if !last.isTextElement then elements ++ [.TextTextPageElement "" ""]
    else elements

/-- The statement
`dynamic_cast<TextTextPageElement&>(elements_to_replay_.back()).append(current, next)`:
the cast of a reference throws `std::bad_cast` unless the last element is a
`TextTextPageElement`, which then gets the character appended in place. -/
def appendToLastTextElement (elements : List TextPageElement) (current next : String) :
    Except PageError (List TextPageElement) :=
  match elements.getLast? with
  | none => .error .back_of_empty
  | some (.TextTextPageElement list_of_chars_to_print_ next_char_) =>
    .ok (elements.dropLast
      ++ [TextTextPageElement.append list_of_chars_to_print_ next_char_ current next])
  | some _ => .error .bad_cast

/-- `TextPage::character(current, next)`. The counter is an `int` and is
incremented in 32-bit arithmetic. -/
def TextPage.character (ops : TextWindowOps World) (st : PageState World)
    (current next : String) : CharacterResult World :=
  let r := TextPage.character_impl ops st current next
  let rendered := r.2
  if rendered then
    let elements := pushTextElementIfNeeded r.1.page.elements_to_replay_
    match appendToLastTextElement elements current next with
    | .error e => ⟨r.1.world, { r.1.page with elements_to_replay_ := elements }, .error e⟩
    | .ok appended =>
      ⟨r.1.world,
        { r.1.page with
          elements_to_replay_ := appended
          number_of_chars_on_page_ := wrapInt32 (r.1.page.number_of_chars_on_page_ + 1) },
        .ok rendered⟩
  else ⟨r.1.world, r.1.page, .ok rendered⟩

/-- A run of consecutive calls `character(c_i, next_i)` on one page, each on the
state the call before it left: the final state and the result of each call. -/
def TextPage.characters (ops : TextWindowOps World) :
    List (String × String) → PageState World →
      PageState World × List (Except PageError Bool)
  | [], st => (st, [])
  | call :: rest, st =>
    let r := TextPage.character ops st call.1 call.2
    let later := TextPage.characters ops rest ⟨r.world, r.page⟩
    (later.1, r.result :: later.2)

/-- `TextPage::addSetToRightStartingColorElement`. -/
def TextPage.addSetToRightStartingColorElement (page : TextPage) : TextPage :=
  { page with
    elements_to_replay_ := page.elements_to_replay_ ++ [.SetToRightStartingColorElement] }

/-- The constructor `TextPage(machine, window_num)`: no character on the page,
not in a ruby gloss, and one `SetToRightStartingColorElement` recorded. -/
def TextPage.new (window_num : Int) : TextPage :=
  TextPage.addSetToRightStartingColorElement ⟨window_num, 0, false, []⟩

/-- `TextPage::name(name, next_char)`: records a `NamePageElement`, counts one
character and sets the name on the window. -/
def TextPage.name (ops : TextWindowOps World) (st : PageState World)
    (name next_char : String) : PageState World :=
  TextPage.name_impl ops
    ⟨st.world,
      { st.page with
        elements_to_replay_ := st.page.elements_to_replay_ ++ [.NamePageElement name next_char]
        number_of_chars_on_page_ := wrapInt32 (st.page.number_of_chars_on_page_ + 1) }⟩
    name next_char

/-- `TextPage::hardBrake()`: records a `HardBreakElement` and breaks the line on
the window. -/
def TextPage.hardBrake (ops : TextWindowOps World) (st : PageState World) :
    PageState World :=
  TextPage.hard_brake_impl ops
    ⟨st.world,
      { st.page with
        elements_to_replay_ := st.page.elements_to_replay_ ++ [.HardBreakElement] }⟩

end TextPageOps

/-! ## A sample text window -/

namespace Sample

/-- A text window that logs the calls it receives and shows at most four
characters: `displayChar` renders while fewer than four entries are logged. -/
def window : TextWindowOps (List String) where
  textWindow := fun world _ => world
  displayChar := fun world _ c _ =>
    if world.length < 4 then (world ++ [c], true) else (world, false)
  setName := fun world _ name _ => world ++ ["name " ++ name]
  hardBrake := fun world _ => world ++ ["break"]
  resetIndentation := fun world _ => world ++ ["indent"]
  setFontColor := fun world _ _ => world ++ ["colour"]
  markRubyBegin := fun world _ => world ++ ["ruby"]
  displayRubyText := fun world _ text => world ++ ["gloss " ++ text]
  colorExists := fun _ _ => true
  printTextToFunction := fun f chars next world => (f chars next world).1

end Sample

/-! ## Sequencing lemmas -/

section Lemmas

variable {Mach Val Piece Exc : Type}

theorem ParseResult.eta_error (r : ParseResult Piece Exc) (e : Exc)
    (h : r.result = .error e) :
    (⟨r.position, r.output, .error e⟩ : ParseResult Piece Exc) = r := by
  cases r; simp_all

theorem ParseResult.eta_ok (r : ParseResult Piece Exc) (u : Unit)
    (h : r.result = .ok u) :
    (⟨r.position, r.output, .ok ()⟩ : ParseResult Piece Exc) = r := by
  cases r; simp_all

/-- Running a pack extended by one descriptor is running the pack and then the
statement of the added descriptor. -/
theorem ParseEachParameter_concat (Args : List (Descriptor Mach Val Piece Exc))
    (T : Descriptor Mach Val Piece Exc) (position : Nat) (input : List String)
    (output : List Piece) :
    ParseEachParameter (Args ++ [T]) position input output
      = parseStmt T input (ParseEachParameter Args position input output) := by
  induction Args generalizing position output with
  | nil =>
    simp only [List.nil_append, ParseEachParameter, parseStmt]
    cases h : (T.ParseParameters position input output).result with
    | error e => simpa using ParseResult.eta_error _ e h
    | ok u => simpa using ParseResult.eta_ok _ u h
  | cons A rest ih =>
    simp only [List.cons_append, ParseEachParameter]
    cases h : (A.ParseParameters position input output).result with
    | error e => simp [parseStmt]
    | ok u => simpa using ih _ _

theorem parseStateAt_zero (Args : List (Descriptor Mach Val Piece Exc))
    (input : List String) (output : List Piece) :
    parseStateAt Args input output 0 = ⟨0, output, .ok ()⟩ := by
  simp [parseStateAt, ParseEachParameter]

theorem parseStateAt_succ (Args : List (Descriptor Mach Val Piece Exc))
    (input : List String) (output : List Piece) (k : Nat) (h : k < Args.length) :
    parseStateAt Args input output (k + 1)
      = parseStmt (Args.get ⟨k, h⟩) input (parseStateAt Args input output k) := by
  unfold parseStateAt
  rw [← List.take_concat_get Args k h, List.concat_eq_append,
    ParseEachParameter_concat]
  rfl

theorem parseStateAt_length (Args : List (Descriptor Mach Val Piece Exc))
    (input : List String) (output : List Piece) :
    parseStateAt Args input output Args.length
      = RLOpcode.ParseParameters Args input output := by
  simp [parseStateAt, RLOpcode.ParseParameters]

theorem parseStmt_of_error (T : Descriptor Mach Val Piece Exc) (input : List String)
    (before : ParseResult Piece Exc) (e : Exc) (h : before.result = .error e) :
    parseStmt T input before = before := by
  simp [parseStmt, h]

theorem parseStmt_of_ok (T : Descriptor Mach Val Piece Exc) (input : List String)
    (before : ParseResult Piece Exc) (h : before.result = .ok ()) :
    parseStmt T input before
      = T.ParseParameters before.position input before.output := by
  simp [parseStmt, h]

/-- `ParseEachParameter` is the left-to-right sequence of the descriptors'
statements. -/
theorem ParseEachParameter_eq_foldl (Args : List (Descriptor Mach Val Piece Exc))
    (position : Nat) (input : List String) (output : List Piece) :
    ParseEachParameter Args position input output
      = Args.foldl (fun r T => parseStmt T input r) ⟨position, output, .ok ()⟩ := by
  induction Args using List.reverseRecOn with
  | nil => simp [ParseEachParameter]
  | append_singleton rest T ih =>
    rw [ParseEachParameter_concat, ih, List.foldl_append]
    rfl

/-- The 26 statements of the primary template are `ParseEachParameter` on the
pack `A, ..., Z`. -/
theorem RLOp_NormalOperation.ParseParameters_eq_RLOpcode
    (A B C D E F G H I J K L M N O P Q R S T U V W X Y Z :
      Descriptor Mach Val Piece Exc)
    (input : List String) (output : List Piece) :
    RLOp_NormalOperation.ParseParameters
        A B C D E F G H I J K L M N O P Q R S T U V W X Y Z input output
      = RLOpcode.ParseParameters
          [A, B, C, D, E, F, G, H, I, J, K, L, M, N, O, P, Q, R, S, T, U, V, W, X, Y, Z]
          input output := by
  rw [RLOpcode.ParseParameters, ParseEachParameter_eq_foldl]
  rfl

/-- A parse that has thrown stays as it is: later descriptors do not run. -/
theorem parseStateAt_ok_of_succ_ok (Args : List (Descriptor Mach Val Piece Exc))
    (input : List String) (output : List Piece) (k : Nat) (h : k < Args.length)
    (hok : (parseStateAt Args input output (k + 1)).result = .ok ()) :
    (parseStateAt Args input output k).result = .ok () := by
  cases hk : (parseStateAt Args input output k).result with
  | ok u => rfl
  | error e =>
    rw [parseStateAt_succ Args input output k h, parseStmt_of_error _ _ _ e hk, hk] at hok
    cases hok

theorem parseStateAt_ok_iff (Args : List (Descriptor Mach Val Piece Exc))
    (input : List String) (output : List Piece) (j : Nat) (hj : j ≤ Args.length) :
    (parseStateAt Args input output j).result = .ok () ↔
      ∀ k (h : k < Args.length), k < j →
        (parseStateAt Args input output k).result = .ok () →
        ((Args.get ⟨k, h⟩).ParseParameters
          (parseStateAt Args input output k).position input
          (parseStateAt Args input output k).output).result = .ok () := by
  induction j with
  | zero => simp [parseStateAt_zero]
  | succ j ih =>
    have hlt : j < Args.length := hj
    have ih := ih (Nat.le_of_lt hlt)
    constructor
    · intro hok k h hkj hk
      have hprev := parseStateAt_ok_of_succ_ok Args input output j hlt hok
      rcases Nat.lt_succ_iff_lt_or_eq.mp hkj with hlt2 | heq
      · exact ih.mp hprev k h hlt2 hk
      · subst heq
        rw [parseStateAt_succ Args input output k hlt, parseStmt_of_ok _ _ _ hprev] at hok
        exact hok
    · intro hall
      have hprev : (parseStateAt Args input output j).result = .ok () :=
        ih.mpr (fun k h hkj hk => hall k h (Nat.lt_succ_of_lt hkj) hk)
      rw [parseStateAt_succ Args input output j hlt, parseStmt_of_ok _ _ _ hprev]
      exact hall j hlt (Nat.lt_succ_self j) hprev

/-- Evaluating a pack extended by one descriptor is evaluating the pack and
then the added descriptor. -/
theorem getDataPack_concat (Args : List (Descriptor Mach Val Piece Exc))
    (A : Descriptor Mach Val Piece Exc) (machine : Mach)
    (parameters : List Piece) (position : Nat) :
    getDataPack (Args ++ [A]) machine parameters position
      = getDataStmt A parameters (getDataPack Args machine parameters position) := by
  induction Args generalizing machine position with
  | nil =>
    simp only [List.nil_append, getDataPack, getDataStmt]
  | cons B rest ih =>
    simp only [List.cons_append, getDataPack]
    cases h : (B.getData machine parameters position).result with
    | error e => simp [getDataStmt]
    | ok v =>
      simp only [List.append_eq, ih]
      generalize getDataPack rest _ parameters _ = r
      obtain ⟨m, q, res⟩ := r
      cases res with
      | error e => simp [getDataStmt]
      | ok vs =>
        simp only [getDataStmt]
        cases h3 : (A.getData m parameters q).result <;> simp

theorem evalStateAt_zero (Args : List (Descriptor Mach Val Piece Exc))
    (machine : Mach) (parameters : List Piece) :
    evalStateAt Args machine parameters 0 = ⟨machine, 0, .ok []⟩ := by
  simp [evalStateAt, getDataPack]

theorem evalStateAt_succ (Args : List (Descriptor Mach Val Piece Exc))
    (machine : Mach) (parameters : List Piece) (k : Nat) (h : k < Args.length) :
    evalStateAt Args machine parameters (k + 1)
      = getDataStmt (Args.get ⟨k, h⟩) parameters
          (evalStateAt Args machine parameters k) := by
  unfold evalStateAt
  rw [← List.take_concat_get Args k h, List.concat_eq_append,
    getDataPack_concat]
  rfl

theorem evalStateAt_length (Args : List (Descriptor Mach Val Piece Exc))
    (machine : Mach) (parameters : List Piece) :
    evalStateAt Args machine parameters Args.length
      = getDataPack Args machine parameters 0 := by
  simp [evalStateAt]

theorem getDataStmt_of_error (A : Descriptor Mach Val Piece Exc)
    (parameters : List Piece) (before : EvalResult Mach Exc (List Val)) (e : Exc)
    (h : before.result = .error e) :
    getDataStmt A parameters before = before := by
  simp [getDataStmt, h]

theorem getDataStmt_machine (A : Descriptor Mach Val Piece Exc)
    (parameters : List Piece) (before : EvalResult Mach Exc (List Val))
    (vs : List Val) (h : before.result = .ok vs) :
    (getDataStmt A parameters before).machine
        = (A.getData before.machine parameters before.position).machine
      ∧ (getDataStmt A parameters before).position
        = (A.getData before.machine parameters before.position).position := by
  simp only [getDataStmt, h]
  cases (A.getData before.machine parameters before.position).result <;> simp

theorem getDataStmt_result (A : Descriptor Mach Val Piece Exc)
    (parameters : List Piece) (before : EvalResult Mach Exc (List Val))
    (vs : List Val) (h : before.result = .ok vs) :
    (getDataStmt A parameters before).result
      = match (A.getData before.machine parameters before.position).result with
        | .error e => .error e
        | .ok v => .ok (vs ++ [v]) := by
  simp only [getDataStmt, h]
  cases (A.getData before.machine parameters before.position).result <;> rfl

/-- Once an element of the pack has thrown, the elements after it are not
evaluated: the result is that of the pack up to the throwing element. -/
theorem getDataPack_append_of_error (xs ys : List (Descriptor Mach Val Piece Exc))
    (machine : Mach) (parameters : List Piece) (position : Nat) (e : Exc)
    (h : (getDataPack xs machine parameters position).result = .error e) :
    getDataPack (xs ++ ys) machine parameters position
      = getDataPack xs machine parameters position := by
  induction xs generalizing machine position e with
  | nil => simp [getDataPack] at h
  | cons A rest ih =>
    simp only [List.cons_append, getDataPack] at h ⊢
    cases hA : (A.getData machine parameters position).result with
    | error e1 => simp
    | ok v =>
      simp only [hA] at h
      simp only [List.append_eq]
      cases hr : (getDataPack rest (A.getData machine parameters position).machine
          parameters (A.getData machine parameters position).position).result with
      | error e2 => rw [ih _ _ e2 hr, hr]
      | ok vs => simp [hr] at h

/-- A pack that evaluates to a tuple has evaluated each of its prefixes to the
corresponding prefix of the tuple. -/
theorem getDataPack_append_ok (xs ys : List (Descriptor Mach Val Piece Exc))
    (machine : Mach) (parameters : List Piece) (position : Nat) (vals : List Val)
    (h : (getDataPack (xs ++ ys) machine parameters position).result = .ok vals) :
    (getDataPack xs machine parameters position).result = .ok (vals.take xs.length) := by
  induction xs generalizing machine position vals with
  | nil => simp [getDataPack]
  | cons A rest ih =>
    simp only [List.cons_append, getDataPack, List.append_eq] at h ⊢
    cases hA : (A.getData machine parameters position).result with
    | error e1 => simp [hA] at h
    | ok v =>
      simp only [hA] at h ⊢
      cases hr : (getDataPack (rest ++ ys) (A.getData machine parameters position).machine
          parameters (A.getData machine parameters position).position).result with
      | error e2 => simp [hr] at h
      | ok vs =>
        simp only [hr, Except.ok.injEq] at h
        subst h
        simp [ih _ _ _ hr]

theorem getDataPack_length (Args : List (Descriptor Mach Val Piece Exc))
    (machine : Mach) (parameters : List Piece) (position : Nat) (vals : List Val)
    (h : (getDataPack Args machine parameters position).result = .ok vals) :
    vals.length = Args.length := by
  induction Args generalizing machine position vals with
  | nil =>
    simp only [getDataPack, Except.ok.injEq] at h
    simp [← h]
  | cons A rest ih =>
    simp only [getDataPack] at h
    cases hA : (A.getData machine parameters position).result with
    | error e1 => simp [hA] at h
    | ok v =>
      simp only [hA] at h
      cases hr : (getDataPack rest (A.getData machine parameters position).machine
          parameters (A.getData machine parameters position).position).result with
      | error e2 => simp [hr] at h
      | ok vs =>
        simp only [hr, Except.ok.injEq] at h
        subst h
        simp [ih _ _ _ hr]

theorem evalStateAt_ok_take (Args : List (Descriptor Mach Val Piece Exc))
    (machine : Mach) (parameters : List Piece) (vals : List Val)
    (h : (getDataPack Args machine parameters 0).result = .ok vals)
    (k : Nat) (hk : k ≤ Args.length) :
    (evalStateAt Args machine parameters k).result = .ok (vals.take k) := by
  have h2 := getDataPack_append_ok (Args.take k) (Args.drop k) machine parameters 0 vals
    (by rw [List.take_append_drop]; exact h)
  simpa [evalStateAt, Nat.min_eq_left hk] using h2

/-- After a throwing element the evaluation state no longer changes. -/
theorem getDataPack_eq_evalStateAt_of_error (Args : List (Descriptor Mach Val Piece Exc))
    (machine : Mach) (parameters : List Piece) (k : Nat) (e : Exc)
    (h : (evalStateAt Args machine parameters k).result = .error e) :
    getDataPack Args machine parameters 0 = evalStateAt Args machine parameters k := by
  have h2 := getDataPack_append_of_error (Args.take k) (Args.drop k) machine parameters 0 e h
  rw [List.take_append_drop] at h2
  exact h2

/-- Component `i` of the tuple of a pack evaluated from any cursor is the value
that descriptor `i` returned on the state the descriptors before it left. -/
theorem getDataPack_component (Args : List (Descriptor Mach Val Piece Exc))
    (machine : Mach) (parameters : List Piece) (position : Nat) (vals : List Val)
    (h : (getDataPack Args machine parameters position).result = .ok vals)
    (i : Nat) (hi : i < Args.length) :
    ∃ v, vals[i]? = some v ∧
      ((Args.get ⟨i, hi⟩).getData
          (getDataPack (Args.take i) machine parameters position).machine parameters
          (getDataPack (Args.take i) machine parameters position).position).result
        = .ok v := by
  have hk := getDataPack_append_ok (Args.take i) (Args.drop i) machine parameters
    position vals (by rw [List.take_append_drop]; exact h)
  have hk1 := getDataPack_append_ok (Args.take (i + 1)) (Args.drop (i + 1)) machine
    parameters position vals (by rw [List.take_append_drop]; exact h)
  rw [List.length_take, Nat.min_eq_left (Nat.le_of_lt hi)] at hk
  rw [List.length_take, Nat.min_eq_left hi] at hk1
  rw [← List.take_concat_get Args i hi, List.concat_eq_append, getDataPack_concat,
    getDataStmt_result _ _ _ _ hk] at hk1
  cases ha : ((Args.get ⟨i, hi⟩).getData
      (getDataPack (Args.take i) machine parameters position).machine parameters
      (getDataPack (Args.take i) machine parameters position).position).result with
  | error e =>
    have hk2 : (match ((Args.get ⟨i, hi⟩).getData
        (getDataPack (Args.take i) machine parameters position).machine parameters
        (getDataPack (Args.take i) machine parameters position).position).result with
      | .error e => (Except.error e : Except Exc (List Val))
      | .ok v => .ok (List.take i vals ++ [v])) = .ok (List.take (i + 1) vals) := hk1
    rw [ha] at hk2
    cases hk2
  | ok v =>
    refine ⟨v, ?_, rfl⟩
    have hk2 : (match ((Args.get ⟨i, hi⟩).getData
        (getDataPack (Args.take i) machine parameters position).machine parameters
        (getDataPack (Args.take i) machine parameters position).position).result with
      | .error e => (Except.error e : Except Exc (List Val))
      | .ok v => .ok (List.take i vals ++ [v])) = .ok (List.take (i + 1) vals) := hk1
    rw [ha] at hk2
    simp only [Except.ok.injEq, List.take_succ] at hk2
    have hv : [v] = vals[i]?.toList := List.append_cancel_left hk2
    cases hvi : vals[i]? with
    | none => simp [hvi] at hv
    | some w =>
      simp only [hvi, Option.toList, List.cons.injEq, and_true] at hv
      rw [hv]

/-! ## `make_indexes` -/

theorem make_indexes_impl_eq {α : Type} (I : Nat) (Indexes : List Nat)
    (Types : List α) :
    make_indexes_impl I Indexes Types = Indexes ++ List.range' I Types.length := by
  induction Types generalizing I Indexes with
  | nil => simp [make_indexes_impl]
  | cons T rest ih =>
    simp [make_indexes_impl, ih, List.range'_succ]

theorem make_indexes_eq_range {α : Type} (Types : List α) :
    make_indexes Types = List.range Types.length := by
  simp [make_indexes, make_indexes_impl_eq, List.range_eq_range']

theorem filterMap_rangeFrom_getElem? {α : Type} (pre args : List α) :
    (List.range' pre.length args.length).filterMap (fun I => (pre ++ args)[I]?)
      = args := by
  induction args generalizing pre with
  | nil => simp
  | cons a rest ih =>
    have h := ih (pre ++ [a])
    simp only [List.length_append, List.length_singleton, List.append_assoc,
      List.singleton_append] at h
    have h0 : (pre ++ a :: rest)[pre.length]? = some a := by
      rw [List.getElem?_append_right (Nat.le_refl _)]
      simp
    rw [List.length_cons, List.range'_succ, List.filterMap_cons, h0]
    simp [h]

/-- Reading a tuple at the indexes `0, ..., N-1` gives back the tuple. -/
theorem filterMap_range_getElem? {α : Type} (args : List α) :
    (List.range args.length).filterMap (fun I => args[I]?) = args := by
  have h := filterMap_rangeFrom_getElem? [] args
  simpa [List.range_eq_range'] using h

/-! ## Chains of lists that only grow -/

/-- A list that grew in `n` steps is its initial content followed by what each
step added, in step order. -/
theorem prefix_chain_flatMap {α : Type} (L : Nat → List α) (n : Nat)
    (h : ∀ k, k < n → L k <+: L (k + 1)) :
    L n = L 0 ++ (List.range n).flatMap (fun k => (L (k + 1)).drop (L k).length) := by
  induction n with
  | zero => simp
  | succ n ih =>
    have ih := ih (fun k hk => h k (Nat.lt_succ_of_lt hk))
    have hstep := List.prefix_iff_eq_append.mp (h n (Nat.lt_succ_self n))
    rw [List.range_succ, List.flatMap_append, List.flatMap_singleton, ← List.append_assoc,
      ← ih, hstep]

/-! ## Trailing `Empty_T` slots -/

theorem parseStmt_Empty_T {Mach Piece Exc : Type} (input : List String)
    (before : ParseResult Piece Exc) :
    parseStmt (Empty_T : Descriptor Mach Value Piece Exc) input before = before := by
  cases hres : before.result with
  | error e => exact parseStmt_of_error _ _ _ e hres
  | ok u =>
    rw [parseStmt_of_ok _ _ _ hres]
    exact ParseResult.eta_ok before u hres

/-- Descriptors `Empty_T` at the end of a pack contribute nothing to the
parse. -/
theorem ParseEachParameter_append_Empty_T {Mach Piece Exc : Type}
    (Args : List (Descriptor Mach Value Piece Exc)) (m : Nat) (position : Nat)
    (input : List String) (output : List Piece) :
    ParseEachParameter (Args ++ List.replicate m Empty_T) position input output
      = ParseEachParameter Args position input output := by
  induction m with
  | zero => simp
  | succ m ih =>
    rw [List.replicate_succ', ← List.append_assoc, ParseEachParameter_concat, ih,
      parseStmt_Empty_T]

/-- Reading the first `n` slots of a template argument list, with a default for
the slots that are not given, gives the arguments followed by defaults. -/
theorem map_getD_range {α : Type} (Args : List α) (d : α) (n : Nat)
    (h : Args.length ≤ n) :
    (List.range n).map (fun i => Args.getD i d)
      = Args ++ List.replicate (n - Args.length) d := by
  induction Args generalizing n with
  | nil =>
    simp only [List.getD_nil, List.length_nil, Nat.sub_zero, List.nil_append]
    exact List.eq_replicate_iff.mpr ⟨by simp, fun b hb => by
      obtain ⟨_, _, rfl⟩ := List.mem_map.mp hb
      rfl⟩
  | cons a rest ih =>
    cases n with
    | zero => simp at h
    | succ n =>
      have hrest : rest.length ≤ n := by simpa using h
      rw [List.range_succ_eq_map, List.map_cons, List.map_map]
      have hfun : ((fun i => (a :: rest).getD i d) ∘ Nat.succ)
          = (fun i => rest.getD i d) := by
        funext i
        simp
      rw [hfun, ih n hrest]
      simp

end Lemmas

/-! ## Replaying a page -/

section ReplayLemmas

variable {World : Type}

theorem for_each_replayElement_concat (ops : TextWindowOps World)
    (elements : List TextPageElement) (e : TextPageElement) (st : PageState World)
    (is_active_page : Bool) :
    for_each_replayElement ops (elements ++ [e]) st is_active_page
      = e.replayElement ops (for_each_replayElement ops elements st is_active_page)
          is_active_page := by
  induction elements generalizing st with
  | nil => rfl
  | cons a rest ih =>
    simp only [List.cons_append, for_each_replayElement]
    exact ih _

theorem for_each_replayElement_eq_foldl (ops : TextWindowOps World)
    (elements : List TextPageElement) (st : PageState World) (is_active_page : Bool) :
    for_each_replayElement ops elements st is_active_page
      = elements.foldl (fun s e => e.replayElement ops s is_active_page) st := by
  induction elements generalizing st with
  | nil => rfl
  | cons a rest ih =>
    simp only [for_each_replayElement, List.foldl_cons]
    exact ih _

/-- No element class records anything when it is replayed: the element list, the
character count and the window number of the page are left alone. -/
theorem replayElement_keeps_record (ops : TextWindowOps World) (e : TextPageElement)
    (st : PageState World) (is_active_page : Bool) :
    (e.replayElement ops st is_active_page).page.elements_to_replay_
        = st.page.elements_to_replay_
      ∧ (e.replayElement ops st is_active_page).page.number_of_chars_on_page_
        = st.page.number_of_chars_on_page_
      ∧ (e.replayElement ops st is_active_page).page.window_num_
        = st.page.window_num_ := by
  cases e with
  | TextTextPageElement chars next =>
    simp only [TextPageElement.replayElement]
    split <;> exact ⟨rfl, rfl, rfl⟩
  | NamePageElement name next => exact ⟨rfl, rfl, rfl⟩
  | HardBreakElement => exact ⟨rfl, rfl, rfl⟩
  | ResetIndentationElement => exact ⟨rfl, rfl, rfl⟩
  | FontColourElement color => exact ⟨rfl, rfl, rfl⟩
  | SetToRightStartingColorElement =>
    simp only [TextPageElement.replayElement, TextPage.set_to_right_starting_color_impl]
    split
    · split <;> exact ⟨rfl, rfl, rfl⟩
    · exact ⟨rfl, rfl, rfl⟩
  | MarkRubyBeginElement => exact ⟨rfl, rfl, rfl⟩
  | DisplayRubyTextElement name => exact ⟨rfl, rfl, rfl⟩

theorem for_each_replayElement_keeps_record (ops : TextWindowOps World)
    (elements : List TextPageElement) (st : PageState World) (is_active_page : Bool) :
    (for_each_replayElement ops elements st is_active_page).page.elements_to_replay_
        = st.page.elements_to_replay_
      ∧ (for_each_replayElement ops elements st is_active_page).page.number_of_chars_on_page_
        = st.page.number_of_chars_on_page_
      ∧ (for_each_replayElement ops elements st is_active_page).page.window_num_
        = st.page.window_num_ := by
  induction elements generalizing st with
  | nil => exact ⟨rfl, rfl, rfl⟩
  | cons a rest ih =>
    simp only [for_each_replayElement]
    have h1 := ih (a.replayElement ops st is_active_page)
    have h2 := replayElement_keeps_record ops a st is_active_page
    exact ⟨h1.1.trans h2.1, h1.2.1.trans h2.2.1, h1.2.2.trans h2.2.2⟩

end ReplayLemmas

/-! ## Recording a character -/

section CharacterLemmas

variable {World : Type}

/-- After the conditional `push_back` the list ends with a text element: the
old last element when it was one, else the new empty `TextTextPageElement`. -/
theorem pushTextElementIfNeeded_last (elements : List TextPageElement) :
    (∃ pre s n, elements = pre ++ [.TextTextPageElement s n]
        ∧ pushTextElementIfNeeded elements = elements)
    ∨ ((elements.getLast?.map TextPageElement.isTextElement) ≠ some true
        ∧ pushTextElementIfNeeded elements
          = elements ++ [.TextTextPageElement "" ""]) := by
  cases hlast : elements.getLast? with
  | none =>
    right
    simp [pushTextElementIfNeeded, hlast]
  | some last =>
    obtain ⟨pre, hpre⟩ := List.getLast?_eq_some_iff.mp hlast
    cases last with
    | TextTextPageElement s n =>
      left
      exact ⟨pre, s, n, hpre, by simp [pushTextElementIfNeeded, hlast,
        TextPageElement.isTextElement]⟩
    | NamePageElement a b =>
      right; simp [pushTextElementIfNeeded, hlast, TextPageElement.isTextElement]
    | HardBreakElement =>
      right; simp [pushTextElementIfNeeded, hlast, TextPageElement.isTextElement]
    | ResetIndentationElement =>
      right; simp [pushTextElementIfNeeded, hlast, TextPageElement.isTextElement]
    | FontColourElement c =>
      right; simp [pushTextElementIfNeeded, hlast, TextPageElement.isTextElement]
    | SetToRightStartingColorElement =>
      right; simp [pushTextElementIfNeeded, hlast, TextPageElement.isTextElement]
    | MarkRubyBeginElement =>
      right; simp [pushTextElementIfNeeded, hlast, TextPageElement.isTextElement]
    | DisplayRubyTextElement a =>
      right; simp [pushTextElementIfNeeded, hlast, TextPageElement.isTextElement]

theorem appendToLastTextElement_concat (pre : List TextPageElement)
    (s n current next : String) :
    appendToLastTextElement (pre ++ [.TextTextPageElement s n]) current next
      = .ok (pre ++ [.TextTextPageElement (s ++ current) next]) := by
  simp [appendToLastTextElement, TextTextPageElement.append]

/-- The two statements on the element list under `if(rendered)`: the cast
succeeds, and the list becomes the old list with the character appended to
its last text element, or the old list followed by a new text element holding
the character. -/
theorem appendToLastTextElement_push (elements : List TextPageElement)
    (current next : String) :
    (∃ pre s n, elements = pre ++ [.TextTextPageElement s n]
        ∧ appendToLastTextElement (pushTextElementIfNeeded elements) current next
          = .ok (pre ++ [.TextTextPageElement (s ++ current) next]))
    ∨ ((elements.getLast?.map TextPageElement.isTextElement) ≠ some true
        ∧ appendToLastTextElement (pushTextElementIfNeeded elements) current next
          = .ok (elements ++ [.TextTextPageElement current next])) := by
  rcases pushTextElementIfNeeded_last elements with
    ⟨pre, s, n, hpre, hpush⟩ | ⟨hlast, hpush⟩
  · left
    refine ⟨pre, s, n, hpre, ?_⟩
    rw [hpush, hpre, appendToLastTextElement_concat]
  · right
    refine ⟨hlast, ?_⟩
    rw [hpush, appendToLastTextElement_concat, String.empty_append]

theorem character_not_rendered (ops : TextWindowOps World) (st : PageState World)
    (current next : String)
    (h : (TextPage.character_impl ops st current next).2 = false) :
    TextPage.character ops st current next
      = ⟨(TextPage.character_impl ops st current next).1.world, st.page, .ok false⟩ := by
  simp only [TextPage.character, h]
  rfl

theorem character_rendered (ops : TextWindowOps World) (st : PageState World)
    (current next : String) (appended : List TextPageElement)
    (h : (TextPage.character_impl ops st current next).2 = true)
    (happ : appendToLastTextElement (pushTextElementIfNeeded st.page.elements_to_replay_)
      current next = .ok appended) :
    TextPage.character ops st current next
      = ⟨(TextPage.character_impl ops st current next).1.world,
          { st.page with
            elements_to_replay_ := appended
            number_of_chars_on_page_ := wrapInt32 (st.page.number_of_chars_on_page_ + 1) },
          .ok true⟩ := by
  have hpage : (TextPage.character_impl ops st current next).1.page = st.page := rfl
  simp only [TextPage.character, h, hpage, happ, if_true]

/-- A call that returned true has rendered. -/
theorem character_rendered_of_result (ops : TextWindowOps World) (st : PageState World)
    (current next : String)
    (h : (TextPage.character ops st current next).result = .ok true) :
    (TextPage.character_impl ops st current next).2 = true := by
  cases hr : (TextPage.character_impl ops st current next).2 with
  | true => rfl
  | false =>
    rw [character_not_rendered ops st current next hr] at h
    simp at h

theorem foldl_append_chars (calls : List (String × String)) (s : String) :
    calls.foldl (fun acc call => acc ++ call.1) s
      = s ++ String.join (calls.map (·.1)) := by
  induction calls generalizing s with
  | nil => simp [String.join]
  | cons call rest ih =>
    simp only [List.foldl_cons, List.map_cons]
    rw [ih]
    have hjoin : String.join (call.1 :: rest.map (·.1))
        = call.1 ++ String.join (rest.map (·.1)) := by
      have h1 := ih call.1
      simp only [String.join, List.foldl_map] at h1
      simp only [String.join, List.foldl_cons, String.empty_append, List.foldl_map]
      exact h1
    rw [hjoin, String.append_assoc]

theorem foldl_last_next (calls : List (String × String)) (hne : calls ≠ [])
    (n0 : String) :
    calls.foldl (fun _ call => call.2) n0 = (calls.getLast hne).2 := by
  induction calls using List.reverseRecOn with
  | nil => exact absurd rfl hne
  | append_singleton rest call _ =>
    simp [List.foldl_append]

/-- A run of rendered characters on a list that ends with a text element
extends that element and nothing else. -/
theorem characters_on_text_element (ops : TextWindowOps World)
    (calls : List (String × String)) (st : PageState World)
    (pre : List TextPageElement) (s n : String)
    (hst : st.page.elements_to_replay_ = pre ++ [.TextTextPageElement s n])
    (hall : ∀ r ∈ (TextPage.characters ops calls st).2, r = .ok true) :
    (TextPage.characters ops calls st).1.page.elements_to_replay_
      = pre ++ [.TextTextPageElement (calls.foldl (fun acc call => acc ++ call.1) s)
          (calls.foldl (fun _ call => call.2) n)] := by
  induction calls generalizing st s n with
  | nil => simpa [TextPage.characters] using hst
  | cons call rest ih =>
    simp only [TextPage.characters, List.mem_cons, forall_eq_or_imp] at hall
    obtain ⟨hhead, hrest⟩ := hall
    have hrendered := character_rendered_of_result ops st call.1 call.2 hhead
    have happ : appendToLastTextElement
        (pushTextElementIfNeeded st.page.elements_to_replay_) call.1 call.2
        = .ok (pre ++ [.TextTextPageElement (s ++ call.1) call.2]) := by
      have hpush : pushTextElementIfNeeded st.page.elements_to_replay_
          = st.page.elements_to_replay_ := by
        rw [hst]
        simp [pushTextElementIfNeeded, TextPageElement.isTextElement]
      rw [hpush, hst, appendToLastTextElement_concat]
    have hchar := character_rendered ops st call.1 call.2 _ hrendered happ
    simp only [TextPage.characters, List.foldl_cons]
    rw [hchar] at hrest ⊢
    exact ih _ (s ++ call.1) call.2 rfl hrest

end CharacterLemmas

/-! ## The property bag -/

/-- The value that `FindProperty` leads to in a property list, if any. -/
theorem FindProperty_cons (p : Property) (rest : PropertyList) (property : Int) :
    FindProperty (p :: rest) property
      = if p.1 = property then some 0 else (FindProperty rest property).map (· + 1) := by
  rfl

/-- What `GetProperty` reads from a property list: the value of the first pair
with the key. -/
theorem GetProperty_cons (name : String) (p : Property) (rest : PropertyList)
    (property value : Int) :
    RLOperation.GetProperty ⟨some (p :: rest), name⟩ property value
      = if p.1 = property then (true, p.2)
        else RLOperation.GetProperty ⟨some rest, name⟩ property value := by
  simp only [RLOperation.GetProperty, FindProperty_cons]
  by_cases hp : p.1 = property
  · simp [hp]
  · simp only [hp, if_false]
    cases FindProperty rest property <;> simp

theorem SetProperty_cons (name : String) (p : Property) (rest : PropertyList)
    (property value : Int) :
    (RLOperation.SetProperty ⟨some (p :: rest), name⟩ property value).property_list_
      = if p.1 = property then some ((property, value) :: rest)
        else ((RLOperation.SetProperty ⟨some rest, name⟩ property value).property_list_).map
          (p :: ·) := by
  simp only [RLOperation.SetProperty, Option.getD_some, FindProperty_cons]
  by_cases hp : p.1 = property
  · simp [hp]
  · simp only [hp, if_false]
    cases FindProperty rest property <;> simp

theorem SetProperty_name (op : RLOperation) (property value : Int) :
    (op.SetProperty property value).name_ = op.name_ := by
  simp only [RLOperation.SetProperty]
  cases FindProperty (op.property_list_.getD []) property <;> rfl

theorem SetProperty_list_isSome (op : RLOperation) (property value : Int) :
    ∃ list, (op.SetProperty property value).property_list_ = some list := by
  simp only [RLOperation.SetProperty]
  cases FindProperty (op.property_list_.getD []) property <;> simp

/-- Reading after one write, on an allocated list: the written key reads the
written value, every other key reads what it read before. -/
theorem GetProperty_SetProperty_list (name : String) (list : PropertyList)
    (property value key d : Int) :
    (RLOperation.SetProperty ⟨some list, name⟩ property value).GetProperty key d
      = if key = property then (true, value)
        else RLOperation.GetProperty ⟨some list, name⟩ key d := by
  induction list with
  | nil =>
    by_cases hk : key = property
    · subst hk
      simp [RLOperation.SetProperty, RLOperation.GetProperty, FindProperty]
    · have hk2 : ¬ property = key := fun h => hk h.symm
      simp [RLOperation.SetProperty, RLOperation.GetProperty, FindProperty, hk, hk2]
  | cons p rest ih =>
    have hname := SetProperty_name ⟨some (p :: rest), name⟩ property value
    have hlist := SetProperty_cons name p rest property value
    have hname2 := SetProperty_name ⟨some rest, name⟩ property value
    obtain ⟨l2, hl2⟩ := SetProperty_list_isSome ⟨some rest, name⟩ property value
    have hrest : RLOperation.SetProperty ⟨some rest, name⟩ property value
        = ⟨some l2, name⟩ := by
      cases hop : RLOperation.SetProperty ⟨some rest, name⟩ property value with
      | mk pl nm =>
        rw [hop] at hl2 hname2
        simp only at hl2 hname2
        rw [hl2, hname2]
    rw [hrest] at ih
    by_cases hp : p.1 = property
    · have hset : RLOperation.SetProperty ⟨some (p :: rest), name⟩ property value
          = ⟨some ((property, value) :: rest), name⟩ := by
        cases hop : RLOperation.SetProperty ⟨some (p :: rest), name⟩ property value with
        | mk pl nm =>
          rw [hop] at hlist hname
          simp only [hp, if_true] at hlist hname
          rw [hlist, hname]
      rw [hset, GetProperty_cons, GetProperty_cons]
      by_cases hk : key = property
      · simp [hk]
      · have hk2 : ¬ property = key := fun h => hk h.symm
        have hk3 : ¬ p.1 = key := fun h => hk (h.symm.trans hp)
        simp [hk, hk2, hk3]
    · have hset : RLOperation.SetProperty ⟨some (p :: rest), name⟩ property value
          = ⟨some (p :: l2), name⟩ := by
        cases hop : RLOperation.SetProperty ⟨some (p :: rest), name⟩ property value with
        | mk pl nm =>
          rw [hop] at hlist hname
          rw [hrest] at hlist
          simp only [hp, if_false, Option.map_some'] at hlist hname
          rw [hlist, hname]
      rw [hset, GetProperty_cons, GetProperty_cons, ih]
      by_cases hpk : p.1 = key
      · have hk : ¬ key = property := fun h => hp (hpk.trans h)
        simp [hpk, hk]
      · simp [hpk]

/-- Reading after one write: the written key reads the written value, every
other key reads what it read before. -/
theorem GetProperty_SetProperty (op : RLOperation) (property value key d : Int) :
    (op.SetProperty property value).GetProperty key d
      = if key = property then (true, value) else op.GetProperty key d := by
  obtain ⟨pl, name⟩ := op
  cases pl with
  | some list => exact GetProperty_SetProperty_list name list property value key d
  | none =>
    have h := GetProperty_SetProperty_list name [] property value key d
    have h1 : RLOperation.SetProperty ⟨none, name⟩ property value
        = RLOperation.SetProperty ⟨some [], name⟩ property value := by
      simp [RLOperation.SetProperty]
    have h2 : RLOperation.GetProperty ⟨none, name⟩ key d
        = RLOperation.GetProperty ⟨some [], name⟩ key d := by
      simp [RLOperation.GetProperty, FindProperty]
    rw [h1, h2]
    exact h

theorem SetProperties_concat (op : RLOperation) (sets : List Property) (s : Property) :
    op.SetProperties (sets ++ [s]) = (op.SetProperties sets).SetProperty s.1 s.2 := by
  simp [RLOperation.SetProperties, List.foldl_append]

theorem lastSet_concat (sets : List Property) (s : Property) (property : Int) :
    lastSet (sets ++ [s]) property
      = if s.1 = property then some s.2 else lastSet sets property := by
  simp only [lastSet, List.reverse_append, List.reverse_singleton, List.singleton_append,
    List.find?_cons]
  by_cases hs : s.1 = property <;> simp [hs]

theorem lastSet_append_of_other_keys (sets later : List Property) (property : Int)
    (h : ∀ s ∈ later, s.1 ≠ property) :
    lastSet (sets ++ later) property = lastSet sets property := by
  induction later using List.reverseRecOn with
  | nil => simp
  | append_singleton later s ih =>
    have hs : s.1 ≠ property := h s (by simp)
    rw [← List.append_assoc, lastSet_concat, if_neg hs]
    exact ih (fun t ht => h t (by simp [ht]))

/-- Reading after a sequence of writes: the value of the most recent write to
the key, or what the key read before the sequence. -/
theorem GetProperty_SetProperties (op : RLOperation) (sets : List Property)
    (key d : Int) :
    (op.SetProperties sets).GetProperty key d
      = match lastSet sets key with
        | some v => (true, v)
        | none => op.GetProperty key d := by
  induction sets using List.reverseRecOn with
  | nil => simp [RLOperation.SetProperties, lastSet]
  | append_singleton sets s ih =>
    rw [SetProperties_concat, GetProperty_SetProperty, lastSet_concat]
    by_cases hs : s.1 = key
    · simp [hs]
    · have hs2 : ¬ key = s.1 := fun h => hs h.symm
      simp only [hs, hs2, if_false]
      exact ih

/-! ## Parsing and the number of tokens -/

section Claims

variable {Mach Val Piece Exc : Type}

/-- C1, as stated, fails: `RLOpcode<Empty_T>::ParseParameters` on the single
token `"1"` returns normally with the cursor at 0, not at the number of
tokens 1, and with nothing appended; so does the all-`Empty_T` specialization
of `RLOp_NormalOperation`. The left-over token is dropped without any error. -/
theorem ParseParameters_accepts_leftover_tokens :
    (RLOpcode.ParseParameters
        ([Empty_T] : List (Descriptor Unit Value String String)) ["1"] []).result
      = .ok ()
    ∧ (RLOpcode.ParseParameters
        ([Empty_T] : List (Descriptor Unit Value String String)) ["1"] []).position
      ≠ ["1"].length
    ∧ (RLOpcode.ParseParameters
        ([Empty_T] : List (Descriptor Unit Value String String)) ["1"] []).output
      = []
    ∧ (RLOp_NormalOperation.ParseParameters_Empty ["1"] []
        : ParseResult String String).result = .ok ()
    ∧ (RLOp_NormalOperation.ParseParameters_Empty ["1"] []
        : ParseResult String String).output = [] :=
  ⟨rfl, by decide, rfl, rfl, rfl⟩

/-- C1, amended: `ParseParameters` never compares the cursor with the number of
tokens. `RLOpcode<Args...>::ParseParameters` returns normally exactly when
every descriptor, run in turn from where its predecessor stopped, returns
normally; the only failures are those thrown by a descriptor. The 26 statements
of `RLOp_NormalOperation<A..Z>::ParseParameters` are the same computation on
the pack `A, ..., Z`. -/
theorem ParseParameters_ok_iff_descriptors_ok
    (Args : List (Descriptor Mach Val Piece Exc)) (input : List String)
    (output : List Piece) :
    ((RLOpcode.ParseParameters Args input output).result = .ok () ↔
      ∀ k (h : k < Args.length),
        (parseStateAt Args input output k).result = .ok () →
        ((Args.get ⟨k, h⟩).ParseParameters
          (parseStateAt Args input output k).position input
          (parseStateAt Args input output k).output).result = .ok ())
    ∧ ∀ A B C D E F G H I J K L M N O P Q R S T U V W X Y Z :
          Descriptor Mach Val Piece Exc,
        RLOp_NormalOperation.ParseParameters
            A B C D E F G H I J K L M N O P Q R S T U V W X Y Z input output
          = RLOpcode.ParseParameters
              [A, B, C, D, E, F, G, H, I, J, K, L, M, N, O, P, Q, R, S, T, U, V, W, X, Y, Z]
              input output := by
  refine ⟨?_, fun A B C D E F G H I J K L M N O P Q R S T U V W X Y Z =>
    RLOp_NormalOperation.ParseParameters_eq_RLOpcode
      A B C D E F G H I J K L M N O P Q R S T U V W X Y Z input output⟩
  rw [← parseStateAt_length,
    parseStateAt_ok_iff Args input output Args.length (Nat.le_refl _)]
  exact ⟨fun h k hk => h k hk hk, fun h k hk _ => h k hk⟩

/-! ## Evaluation order and the handler call -/

/-- C2: `Dispatch` evaluates the descriptors in declaration order on one shared
machine and one shared cursor. The first descriptor sees the caller's machine
and cursor 0; while nothing has thrown, the machine and cursor left by
descriptor `k` are those that descriptor `k+1` starts from; the tuple handed on
by `Dispatch` is the state after the last descriptor. Hence, for any log kept
in the machine that the descriptors only append to, the log after the
evaluation is the initial log followed by what descriptor 0 recorded, then
what descriptor 1 recorded, and so on in declaration order. -/
theorem Dispatch_evaluates_in_declaration_order
    (Args : List (Descriptor Mach Val Piece Exc)) (machine : Mach)
    (parameters : List Piece) {Eff : Type} (log : Mach → List Eff)
    (hlog : ∀ A ∈ Args, ∀ m p q, log m <+: log (A.getData m p q).machine) :
    evalStateAt Args machine parameters 0 = ⟨machine, 0, .ok []⟩
    ∧ (∀ k (h : k < Args.length) vs,
        (evalStateAt Args machine parameters k).result = .ok vs →
        (evalStateAt Args machine parameters (k + 1)).machine
            = ((Args.get ⟨k, h⟩).getData (evalStateAt Args machine parameters k).machine
                parameters (evalStateAt Args machine parameters k).position).machine
          ∧ (evalStateAt Args machine parameters (k + 1)).position
            = ((Args.get ⟨k, h⟩).getData (evalStateAt Args machine parameters k).machine
                parameters (evalStateAt Args machine parameters k).position).position)
    ∧ (∀ op : Mach → List Val → Outcome Mach Exc,
        RLOpcode.Dispatch Args op machine parameters
          = match (evalStateAt Args machine parameters Args.length).result with
            | .error e =>
              ⟨(evalStateAt Args machine parameters Args.length).machine, .error e⟩
            | .ok tuple =>
              RLOpcode.DispatchImpl op
                (evalStateAt Args machine parameters Args.length).machine tuple
                (make_indexes Args))
    ∧ log (evalStateAt Args machine parameters Args.length).machine
        = log machine ++ (List.range Args.length).flatMap (fun k =>
            (log (evalStateAt Args machine parameters (k + 1)).machine).drop
              (log (evalStateAt Args machine parameters k).machine).length) := by
  refine ⟨evalStateAt_zero Args machine parameters, ?_, ?_, ?_⟩
  · intro k h vs hk
    rw [evalStateAt_succ Args machine parameters k h]
    exact getDataStmt_machine _ _ _ vs hk
  · intro op
    rw [evalStateAt_length]
    rfl
  · have hchain : ∀ k, k < Args.length →
        log (evalStateAt Args machine parameters k).machine
          <+: log (evalStateAt Args machine parameters (k + 1)).machine := by
      intro k hk
      rw [evalStateAt_succ Args machine parameters k hk]
      cases hres : (evalStateAt Args machine parameters k).result with
      | error e =>
        rw [getDataStmt_of_error _ _ _ e hres]
      | ok vs =>
        rw [(getDataStmt_machine _ _ _ vs hres).1]
        exact hlog _ (List.get_mem Args k hk) _ _ _
    have h := prefix_chain_flatMap
      (fun k => log (evalStateAt Args machine parameters k).machine) Args.length hchain
    simpa [evalStateAt_zero] using h

/-- C2 at a concrete operation: two logging descriptors around an `Empty_T`,
on the parameters `a`, `b`. -/
theorem Dispatch_evaluates_in_declaration_order_witness :
    (∀ A ∈ [Sample.Token, Empty_T, Sample.Token], ∀ (m : List Nat) (p : List String) q,
        id m <+: id (A.getData m p q).machine)
    ∧ (evalStateAt [Sample.Token, Empty_T, Sample.Token] [7] ["a", "b"] 3).machine
        = [7] ++ (List.range 3).flatMap (fun k =>
            ((evalStateAt [Sample.Token, Empty_T, Sample.Token] [7] ["a", "b"]
                (k + 1)).machine).drop
              ((evalStateAt [Sample.Token, Empty_T, Sample.Token] [7] ["a", "b"]
                k).machine).length)
    ∧ (evalStateAt [Sample.Token, Empty_T, Sample.Token] [7] ["a", "b"] 3).machine
        = [7, 0, 1] := by
  have hlog : ∀ A ∈ [Sample.Token, Empty_T, Sample.Token],
      ∀ (m : List Nat) (p : List String) q, id m <+: id (A.getData m p q).machine := by
    intro A hA m p q
    simp only [List.mem_cons, List.mem_singleton, List.not_mem_nil, or_false] at hA
    rcases hA with rfl | rfl | rfl
    · simp only [Sample.Token, id]
      cases p[q]? <;> simp
    · simp [Empty_T]
    · simp only [Sample.Token, id]
      cases p[q]? <;> simp
  exact ⟨hlog,
    (Dispatch_evaluates_in_declaration_order [Sample.Token, Empty_T, Sample.Token]
      [7] ["a", "b"] id hlog).2.2.2, rfl⟩

/-- C3: when every evaluation succeeds, `Dispatch` is exactly one call of the
handler `operator()`, on the machine the evaluations left and with the tuple of
evaluated operands: `make_indexes<Args...>` is `0, 1, ..., N-1`, the tuple has
`N` components, and component `i` is the value that descriptor `i` returned
from `getData` on the state its predecessors left. -/
theorem Dispatch_calls_handler_with_operands_in_order
    (Args : List (Descriptor Mach Val Piece Exc))
    (op : Mach → List Val → Outcome Mach Exc) (machine : Mach)
    (parameters : List Piece) (vals : List Val)
    (h : (getDataPack Args machine parameters 0).result = .ok vals) :
    RLOpcode.Dispatch Args op machine parameters
      = op (getDataPack Args machine parameters 0).machine vals
    ∧ make_indexes Args = List.range Args.length
    ∧ vals.length = Args.length
    ∧ ∀ i (hi : i < Args.length), ∃ v, vals[i]? = some v ∧
        ((Args.get ⟨i, hi⟩).getData (evalStateAt Args machine parameters i).machine
            parameters (evalStateAt Args machine parameters i).position).result
          = .ok v := by
  have hlen := getDataPack_length Args machine parameters 0 vals h
  refine ⟨?_, make_indexes_eq_range Args, hlen, ?_⟩
  · simp only [RLOpcode.Dispatch, h, RLOpcode.DispatchImpl, make_indexes_eq_range]
    rw [← hlen, filterMap_range_getElem?]
  · intro i hi
    have hk := evalStateAt_ok_take Args machine parameters vals h i (Nat.le_of_lt hi)
    have hk1 := evalStateAt_ok_take Args machine parameters vals h (i + 1) hi
    rw [evalStateAt_succ Args machine parameters i hi,
      getDataStmt_result _ _ _ _ hk] at hk1
    cases ha : ((Args.get ⟨i, hi⟩).getData (evalStateAt Args machine parameters i).machine
        parameters (evalStateAt Args machine parameters i).position).result with
    | error e =>
      rw [ha] at hk1
      cases hk1
    | ok v =>
      refine ⟨v, ?_, rfl⟩
      rw [ha] at hk1
      simp only [Except.ok.injEq, List.take_succ] at hk1
      have hv : [v] = vals[i]?.toList := List.append_cancel_left hk1
      cases hvi : vals[i]? with
      | none => simp [hvi] at hv
      | some w =>
        simp only [hvi, Option.toList, List.cons.injEq, and_true] at hv
        rw [hv]

/-- C3 at a concrete operation: two string operands, handed to the handler in
declaration order, in one call. -/
theorem Dispatch_calls_handler_with_operands_in_order_witness :
    (getDataPack [Sample.Token, Sample.Token] [] ["a", "b"] 0).result
      = .ok [Value.str "a", Value.str "b"]
    ∧ RLOpcode.Dispatch [Sample.Token, Sample.Token] Sample.record [] ["a", "b"]
      = Sample.record [0, 1] [Value.str "a", Value.str "b"]
    ∧ (RLOpcode.Dispatch [Sample.Token, Sample.Token] Sample.record [] ["a", "b"]).machine
      = [0, 1, 2, 100] :=
  ⟨rfl, (Dispatch_calls_handler_with_operands_in_order [Sample.Token, Sample.Token]
    Sample.record [] ["a", "b"] [Value.str "a", Value.str "b"] rfl).1, rfl⟩

/-! ## Parsing: cursor and output -/

/-- While parsing, the output of every step extends the output before it, when
each descriptor only appends. -/
theorem parseStateAt_output_grows (Args : List (Descriptor Mach Val Piece Exc))
    (input : List String) (output : List Piece)
    (happ : ∀ T ∈ Args, ∀ q out, out <+: (T.ParseParameters q input out).output)
    (k : Nat) (hk : k < Args.length) :
    (parseStateAt Args input output k).output
      <+: (parseStateAt Args input output (k + 1)).output := by
  rw [parseStateAt_succ Args input output k hk]
  cases hres : (parseStateAt Args input output k).result with
  | error e => rw [parseStmt_of_error _ _ _ e hres]
  | ok u =>
    rw [parseStmt_of_ok _ _ _ hres]
    exact happ _ (List.get_mem Args k hk) _ _

/-- C4: the cursor of `RLOpcode<Args...>::ParseParameters` starts at 0, each
descriptor starts where its predecessor stopped, and the final cursor is the
sum over the descriptors of the number of tokens each one consumed (the
difference of the cursor across its run); the final output is the initial
output followed by what each descriptor appended, in list order. -/
theorem ParseParameters_cursor_is_sum_of_consumption
    (Args : List (Descriptor Mach Val Piece Exc)) (input : List String)
    (output : List Piece)
    (happ : ∀ T ∈ Args, ∀ q out, out <+: (T.ParseParameters q input out).output) :
    parseStateAt Args input output 0 = ⟨0, output, .ok ()⟩
    ∧ (∀ k (h : k < Args.length),
        (parseStateAt Args input output k).result = .ok () →
        parseStateAt Args input output (k + 1)
          = (Args.get ⟨k, h⟩).ParseParameters
              (parseStateAt Args input output k).position input
              (parseStateAt Args input output k).output)
    ∧ ((RLOpcode.ParseParameters Args input output).position : Int)
        = ∑ k ∈ Finset.range Args.length,
            (((parseStateAt Args input output (k + 1)).position : Int)
              - ((parseStateAt Args input output k).position : Int))
    ∧ (RLOpcode.ParseParameters Args input output).output
        = output ++ (List.range Args.length).flatMap (fun k =>
            ((parseStateAt Args input output (k + 1)).output).drop
              ((parseStateAt Args input output k).output).length) := by
  refine ⟨parseStateAt_zero Args input output, ?_, ?_, ?_⟩
  · intro k h hk
    rw [parseStateAt_succ Args input output k h, parseStmt_of_ok _ _ _ hk]
  · rw [Finset.sum_range_sub (fun k => ((parseStateAt Args input output k).position : Int)),
      parseStateAt_length, parseStateAt_zero]
    simp
  · have h := prefix_chain_flatMap
      (fun k => (parseStateAt Args input output k).output) Args.length
      (parseStateAt_output_grows Args input output happ)
    simpa [parseStateAt_length, parseStateAt_zero] using h

/-- C4 at a concrete operation: two consuming descriptors around an `Empty_T`
on three tokens. -/
theorem ParseParameters_cursor_is_sum_of_consumption_witness :
    (∀ T ∈ [Sample.Token, Empty_T, Sample.Token], ∀ q (out : List String),
        out <+: (T.ParseParameters q ["a", "b", "c"] out).output)
    ∧ ((RLOpcode.ParseParameters [Sample.Token, Empty_T, Sample.Token]
          ["a", "b", "c"] ["z"]).position : Int)
        = ∑ k ∈ Finset.range 3,
            (((parseStateAt [Sample.Token, Empty_T, Sample.Token]
                ["a", "b", "c"] ["z"] (k + 1)).position : Int)
              - ((parseStateAt [Sample.Token, Empty_T, Sample.Token]
                ["a", "b", "c"] ["z"] k).position : Int))
    ∧ (RLOpcode.ParseParameters [Sample.Token, Empty_T, Sample.Token]
          ["a", "b", "c"] ["z"]).output = ["z", "a", "b"] := by
  have happ : ∀ T ∈ [Sample.Token, Empty_T, Sample.Token], ∀ q (out : List String),
      out <+: (T.ParseParameters q ["a", "b", "c"] out).output := by
    intro T hT q out
    simp only [List.mem_cons, List.mem_singleton, List.not_mem_nil, or_false] at hT
    rcases hT with rfl | rfl | rfl
    · simp only [Sample.Token]
      cases ["a", "b", "c"][q]? <;> simp
    · simp [Empty_T]
    · simp only [Sample.Token]
      cases ["a", "b", "c"][q]? <;> simp
  exact ⟨happ,
    (ParseParameters_cursor_is_sum_of_consumption [Sample.Token, Empty_T, Sample.Token]
      ["a", "b", "c"] ["z"] happ).2.2.1, rfl⟩

/-! ## Parse and evaluation in lock-step -/

/-- When the evaluation of descriptor `k` throws after its predecessors
succeeded, the pack expansion stops there: its final state is the state the
throwing call left. -/
theorem getDataPack_of_failure_at
    (Args : List (Descriptor Mach Val Piece Exc)) (machine : Mach)
    (parameters : List Piece) (k : Nat) (h : k < Args.length) (vs : List Val)
    (e : Exc)
    (hprev : (evalStateAt Args machine parameters k).result = .ok vs)
    (hfail : ((Args.get ⟨k, h⟩).getData (evalStateAt Args machine parameters k).machine
        parameters (evalStateAt Args machine parameters k).position).result = .error e) :
    getDataPack Args machine parameters 0
      = ⟨((Args.get ⟨k, h⟩).getData (evalStateAt Args machine parameters k).machine
            parameters (evalStateAt Args machine parameters k).position).machine,
          ((Args.get ⟨k, h⟩).getData (evalStateAt Args machine parameters k).machine
            parameters (evalStateAt Args machine parameters k).position).position,
          .error e⟩ := by
  have hres : (evalStateAt Args machine parameters (k + 1)).result = .error e := by
    rw [evalStateAt_succ Args machine parameters k h, getDataStmt_result _ _ _ _ hprev, hfail]
  rw [getDataPack_eq_evalStateAt_of_error Args machine parameters (k + 1) e hres]
  have hm := getDataStmt_machine (Args.get ⟨k, h⟩) parameters _ vs hprev
  rw [← evalStateAt_succ Args machine parameters k h] at hm
  rw [← hm.1, ← hm.2, ← hres]

/-- C6: when the evaluation of descriptor `k` throws after descriptors
`0..k-1` succeeded, nothing is rolled back. The machine that `Dispatch` leaves
is the machine the throwing `getData` call left, and that call started from
the machine left by descriptor `k-1`; if the throwing call did not touch the
machine, `Dispatch` leaves exactly the machine left by descriptor `k-1`. -/
theorem Dispatch_failure_keeps_earlier_effects
    (Args : List (Descriptor Mach Val Piece Exc))
    (op : Mach → List Val → Outcome Mach Exc) (machine : Mach)
    (parameters : List Piece) (k : Nat) (h : k < Args.length) (vs : List Val)
    (e : Exc)
    (hprev : (evalStateAt Args machine parameters k).result = .ok vs)
    (hfail : ((Args.get ⟨k, h⟩).getData (evalStateAt Args machine parameters k).machine
        parameters (evalStateAt Args machine parameters k).position).result = .error e) :
    (RLOpcode.Dispatch Args op machine parameters).machine
      = ((Args.get ⟨k, h⟩).getData (evalStateAt Args machine parameters k).machine
          parameters (evalStateAt Args machine parameters k).position).machine
    ∧ (∀ j (hj : j < Args.length), j + 1 = k →
        (evalStateAt Args machine parameters k).machine
          = ((Args.get ⟨j, hj⟩).getData (evalStateAt Args machine parameters j).machine
              parameters (evalStateAt Args machine parameters j).position).machine)
    ∧ (((Args.get ⟨k, h⟩).getData (evalStateAt Args machine parameters k).machine
          parameters (evalStateAt Args machine parameters k).position).machine
        = (evalStateAt Args machine parameters k).machine →
      (RLOpcode.Dispatch Args op machine parameters).machine
        = (evalStateAt Args machine parameters k).machine) := by
  have hD : (RLOpcode.Dispatch Args op machine parameters).machine
      = ((Args.get ⟨k, h⟩).getData (evalStateAt Args machine parameters k).machine
          parameters (evalStateAt Args machine parameters k).position).machine := by
    simp only [RLOpcode.Dispatch,
      getDataPack_of_failure_at Args machine parameters k h vs e hprev hfail]
  refine ⟨hD, ?_, fun hsame => hD.trans hsame⟩
  intro j hj hjk
  subst hjk
  have hj_ok := evalStateAt_ok_take (Args.take (j + 1)) machine parameters vs
    (by simpa [evalStateAt] using hprev) j (by simp; omega)
  have hj_state : evalStateAt (Args.take (j + 1)) machine parameters j
      = evalStateAt Args machine parameters j := by
    simp [evalStateAt, List.take_take]
  rw [hj_state] at hj_ok
  rw [evalStateAt_succ Args machine parameters j hj]
  exact (getDataStmt_machine _ _ _ _ hj_ok).1

/-- C6 at a concrete operation: the second of two logging descriptors runs out
of parameters; the effect recorded by the first stays in the machine. -/
theorem Dispatch_failure_keeps_earlier_effects_witness :
    (evalStateAt [Sample.Token, Sample.Token] [7] ["a"] 1).result = .ok [Value.str "a"]
    ∧ (Sample.Token.getData (evalStateAt [Sample.Token, Sample.Token] [7] ["a"] 1).machine
        ["a"] (evalStateAt [Sample.Token, Sample.Token] [7] ["a"] 1).position).result
      = .error "out of range"
    ∧ (RLOpcode.Dispatch [Sample.Token, Sample.Token] Sample.record [7] ["a"]).machine
      = [7, 0] :=
  ⟨rfl, rfl,
    (Dispatch_failure_keeps_earlier_effects [Sample.Token, Sample.Token] Sample.record
      [7] ["a"] 1 (by decide) [Value.str "a"] "out of range" rfl rfl).1⟩

/-- C7: when the evaluation of descriptor `k` throws after descriptors
`0..k-1` succeeded, `Dispatch` ends with that exception, and what it leaves
depends neither on the descriptors after `k` nor on the handler: they are not
evaluated and `operator()` is not called. -/
theorem Dispatch_failure_aborts_dispatch
    (Args : List (Descriptor Mach Val Piece Exc))
    (op : Mach → List Val → Outcome Mach Exc) (machine : Mach)
    (parameters : List Piece) (k : Nat) (h : k < Args.length) (vs : List Val)
    (e : Exc)
    (hprev : (evalStateAt Args machine parameters k).result = .ok vs)
    (hfail : ((Args.get ⟨k, h⟩).getData (evalStateAt Args machine parameters k).machine
        parameters (evalStateAt Args machine parameters k).position).result = .error e) :
    (RLOpcode.Dispatch Args op machine parameters).result = .error e
    ∧ ∀ (later : List (Descriptor Mach Val Piece Exc))
        (op2 : Mach → List Val → Outcome Mach Exc),
        RLOpcode.Dispatch (Args.take (k + 1) ++ later) op2 machine parameters
          = RLOpcode.Dispatch Args op machine parameters := by
  have hres : (evalStateAt Args machine parameters (k + 1)).result = .error e := by
    rw [evalStateAt_succ Args machine parameters k h, getDataStmt_result _ _ _ _ hprev, hfail]
  have hAll := getDataPack_eq_evalStateAt_of_error Args machine parameters (k + 1) e hres
  refine ⟨?_, ?_⟩
  · simp only [RLOpcode.Dispatch, hAll, hres]
  · intro later op2
    have hLater := getDataPack_append_of_error (Args.take (k + 1)) later machine
      parameters 0 e hres
    simp only [RLOpcode.Dispatch, hAll, hLater]
    simp only [evalStateAt] at hres ⊢
    simp only [hres]

/-- C7 at a concrete operation: the first of two descriptors runs out of
parameters; the handler leaves no record in the machine. -/
theorem Dispatch_failure_aborts_dispatch_witness :
    (evalStateAt [Sample.Token, Sample.Token] [7] [] 0).result = .ok []
    ∧ (Sample.Token.getData (evalStateAt [Sample.Token, Sample.Token] [7] [] 0).machine
        [] (evalStateAt [Sample.Token, Sample.Token] [7] [] 0).position).result
      = .error "out of range"
    ∧ (RLOpcode.Dispatch [Sample.Token, Sample.Token] Sample.record [7] []).result
      = .error "out of range"
    ∧ RLOpcode.Dispatch [Sample.Token, Sample.Token] Sample.record [7] []
      = ⟨[7], .error "out of range"⟩ :=
  ⟨rfl, rfl,
    (Dispatch_failure_aborts_dispatch [Sample.Token, Sample.Token] Sample.record
      [7] [] 0 (by decide) [] "out of range" rfl rfl).1, rfl⟩

/-! ## Operations without operands -/

/-- C10: an operation without operands parses nothing and calls its handler
with the machine alone. The all-`Empty_T` specialization of
`RLOp_NormalOperation::ParseParameters` and `RLOpcode<>::ParseParameters` return
normally for every input, the cursor at 0 and the output unchanged, and so does
`RLOpcode` over any number of `Empty_T`; `RLOpcode<>::Dispatch` is one call of
the handler on the caller's machine with an empty operand list, and
`RLOp_Void_Void::Dispatch` one call of `operator()(machine)`. -/
theorem all_Empty_parses_nothing_and_dispatches_without_operands
    (input : List String) (output : List Piece) (machine : Mach)
    (parameters : List Piece) (op : Mach → List Value → Outcome Mach Exc)
    (op0 : Mach → Outcome Mach Exc) (n : Nat) :
    (RLOp_NormalOperation.ParseParameters_Empty input output : ParseResult Piece Exc)
      = ⟨0, output, .ok ()⟩
    ∧ RLOpcode.ParseParameters ([] : List (Descriptor Mach Value Piece Exc)) input output
      = ⟨0, output, .ok ()⟩
    ∧ RLOpcode.ParseParameters
        (List.replicate n (Empty_T : Descriptor Mach Value Piece Exc)) input output
      = ⟨0, output, .ok ()⟩
    ∧ RLOpcode.Dispatch ([] : List (Descriptor Mach Value Piece Exc)) op machine parameters
      = op machine []
    ∧ RLOp_Void_Void.Dispatch op0 machine parameters = op0 machine := by
  refine ⟨rfl, rfl, ?_, rfl, rfl⟩
  induction n with
  | zero => rfl
  | succ n ih =>
    simpa [RLOpcode.ParseParameters, List.replicate_succ, ParseEachParameter, Empty_T]
      using ih

/-! ## Properties -/

/-- C8: the property bag is last-write-wins per key. Two `SetProperty` calls
for the same key followed by `GetProperty` report found with the second value;
after any sequence of `SetProperty` calls, `GetProperty` reports the value of
the most recent call for the key (or, when there is none, what it reported
before the sequence), whatever calls for other keys come in between or
after. -/
theorem property_bag_last_write_wins (op : RLOperation) (k v1 v2 d : Int) :
    ((op.SetProperty k v1).SetProperty k v2).GetProperty k d = (true, v2)
    ∧ (∀ sets : List Property,
        (op.SetProperties sets).GetProperty k d
          = match lastSet sets k with
            | some v => (true, v)
            | none => op.GetProperty k d)
    ∧ (∀ (earlier later : List Property) (v : Int), (∀ s ∈ later, s.1 ≠ k) →
        (op.SetProperties (earlier ++ [(k, v)] ++ later)).GetProperty k d = (true, v)) := by
  refine ⟨?_, fun sets => GetProperty_SetProperties op sets k d, ?_⟩
  · rw [GetProperty_SetProperty, if_pos rfl]
  · intro earlier later v hlater
    rw [GetProperty_SetProperties, lastSet_append_of_other_keys _ _ _ hlater,
      lastSet_concat, if_pos rfl]

/-- C8 at a concrete bag: key 1 is set to 2, then key 3 to 4, then key 1 to 5,
then key 6 to 7; key 1 reads 5. -/
theorem property_bag_last_write_wins_witness :
    (∀ s ∈ [((6 : Int), (7 : Int))], s.1 ≠ 1)
    ∧ (RLOperation.new.SetProperties
        ([(1, 2), (3, 4)] ++ [(1, 5)] ++ [(6, 7)])).GetProperty 1 0 = (true, 5) :=
  ⟨by decide,
    (property_bag_last_write_wins RLOperation.new 1 0 0 0).2.2 [(1, 2), (3, 4)] [(6, 7)] 5
      (by decide)⟩

/-- C9: a key that was never passed to `SetProperty` is reported not found.
On an operation that started without a property list and then received any
sequence of `SetProperty` calls for other keys, `GetProperty` returns false
and leaves the caller's value as it was; so it does on the freshly
constructed operation, whose list has not been created. `GetProperty` is a
total function: there is no input on which it throws. -/
theorem GetProperty_never_set_key_not_found (name : String)
    (sets : List Property) (k d : Int) (h : ∀ s ∈ sets, s.1 ≠ k) :
    (RLOperation.SetProperties ⟨none, name⟩ sets).GetProperty k d = (false, d)
    ∧ RLOperation.new.GetProperty k d = (false, d) := by
  refine ⟨?_, rfl⟩
  have hlast : lastSet sets k = lastSet [] k := by
    simpa using lastSet_append_of_other_keys [] sets k h
  rw [GetProperty_SetProperties, hlast]
  rfl

/-- C9 at a concrete bag: keys 1 and 3 were set, key 2 was not. -/
theorem GetProperty_never_set_key_not_found_witness :
    (∀ s ∈ [((1 : Int), (2 : Int)), (3, 4), (1, 5)], s.1 ≠ 2)
    ∧ (RLOperation.SetProperties ⟨none, "op"⟩ [(1, 2), (3, 4), (1, 5)]).GetProperty 2 9
      = (false, 9) :=
  ⟨by decide,
    (GetProperty_never_set_key_not_found "op" [(1, 2), (3, 4), (1, 5)] 2 9
      (by decide)).1⟩

/-! ## The `Empty_T` descriptor -/

/-- C11: `Empty_T` consumes nothing and changes nothing. For every cursor,
input and output, `Empty_T::ParseParameters` returns normally with the cursor
and the output as they were; for every machine, parameter list and cursor,
`Empty_T::getData` returns the sentinel `empty_struct` with the machine and
the cursor as they were. -/
theorem Empty_T_consumes_nothing (machine : Mach) (parameters : List Piece)
    (position : Nat) (input : List String) (output : List Piece) :
    ((Empty_T : Descriptor Mach Value Piece Exc).ParseParameters position input output
      = ⟨position, output, .ok ()⟩)
    ∧ ((Empty_T : Descriptor Mach Value Piece Exc).getData machine parameters position
      = ⟨machine, position, .ok Value.empty_struct⟩) :=
  ⟨rfl, rfl⟩

/-! ## The advance policy -/

theorem callVirtual_cons (m : String × Bool) (rest : BoolVirtuals) (asked : String) :
    callVirtual (m :: rest) asked
      = if m.1 = asked then some m.2 else callVirtual rest asked := by
  by_cases hm : m.1 = asked <;> simp [callVirtual, List.find?_cons, hm]

theorem callVirtual_map_of_ne (cls : BoolVirtuals) (name : String) (body : Bool)
    (asked : String) (h : name ≠ asked) :
    callVirtual (cls.map (fun m => if m.1 = name then (name, body) else m)) asked
      = callVirtual cls asked := by
  induction cls with
  | nil => rfl
  | cons m rest ih =>
    rw [List.map_cons, callVirtual_cons, callVirtual_cons, ih]
    by_cases hm : m.1 = name
    · have hm2 : ¬ m.1 = asked := fun h2 => h (hm.symm.trans h2)
      simp [hm, hm2, h]
    · simp [hm]

theorem callVirtual_declareVirtual_of_ne (cls : BoolVirtuals) (name : String)
    (body : Bool) (asked : String) (h : name ≠ asked) :
    callVirtual (declareVirtual cls name body) asked = callVirtual cls asked := by
  unfold declareVirtual
  split
  · exact callVirtual_map_of_ne cls name body asked h
  · simp [callVirtual, List.find?_append, h]

/-- C12: an operation that does not override it answers the advance-policy
query with true. For every class derived from `RLOperation` through any chain
of classes none of which declares a member function named
`AdvanceInstructionPointer`, the query returns true. -/
theorem AdvanceInstructionPointer_default_true (declared : List (String × Bool))
    (h : ∀ d ∈ declared, d.1 ≠ "AdvanceInstructionPointer") :
    AdvanceInstructionPointer (deriveVirtuals RLOperation.virtuals declared)
      = some true := by
  have hgen : ∀ cls : BoolVirtuals,
      AdvanceInstructionPointer (deriveVirtuals cls declared)
        = AdvanceInstructionPointer cls := by
    induction declared with
    | nil => intro cls; rfl
    | cons d rest ih =>
      intro cls
      have hd : d.1 ≠ "AdvanceInstructionPointer" := h d (by simp)
      have hrest := ih (fun e he => h e (by simp [he])) (declareVirtual cls d.1 d.2)
      simp only [deriveVirtuals, List.foldl_cons] at hrest ⊢
      rw [hrest]
      exact callVirtual_declareVirtual_of_ne cls d.1 d.2 _ hd
  rw [hgen]
  decide

/-- C12 at a concrete class: `RLOp_Void_Void`, and a class derived from
`RLOperation` that declares one unrelated member function. -/
theorem AdvanceInstructionPointer_default_true_witness :
    (∀ d ∈ [("IsEnabled", false)], d.1 ≠ "AdvanceInstructionPointer")
    ∧ AdvanceInstructionPointer (deriveVirtuals RLOperation.virtuals [("IsEnabled", false)])
      = some true
    ∧ AdvanceInstructionPointer RLOp_Void_Void.virtuals = some true :=
  ⟨by decide,
    AdvanceInstructionPointer_default_true [("IsEnabled", false)] (by decide),
    by decide⟩

/-- C18: `grpToRecCoordinates` leaves `x1` and `y1` as they are and replaces
`x2` by the width `x2 - x1` and `y2` by the height `y2 - y1`, computed in
32-bit `int` arithmetic; in that arithmetic `x1 + width` and `y1 + height` are
the original `x2` and `y2`, which are `int` values. When the differences fit
an `int`, width and height are the mathematical differences and the sums
recover `x2` and `y2` without wrapping. -/
theorem grpToRecCoordinates_width_height (x1 y1 x2 y2 : Int)
    (hx2 : IsInt32 x2) (hy2 : IsInt32 y2) :
    (grpToRecCoordinates x1 y1 x2 y2).x1 = x1
    ∧ (grpToRecCoordinates x1 y1 x2 y2).y1 = y1
    ∧ (grpToRecCoordinates x1 y1 x2 y2).x2 = wrapInt32 (x2 - x1)
    ∧ (grpToRecCoordinates x1 y1 x2 y2).y2 = wrapInt32 (y2 - y1)
    ∧ wrapInt32 ((grpToRecCoordinates x1 y1 x2 y2).x1
        + (grpToRecCoordinates x1 y1 x2 y2).x2) = x2
    ∧ wrapInt32 ((grpToRecCoordinates x1 y1 x2 y2).y1
        + (grpToRecCoordinates x1 y1 x2 y2).y2) = y2
    ∧ (IsInt32 (x2 - x1) →
        (grpToRecCoordinates x1 y1 x2 y2).x2 = x2 - x1
        ∧ (grpToRecCoordinates x1 y1 x2 y2).x1
            + (grpToRecCoordinates x1 y1 x2 y2).x2 = x2)
    ∧ (IsInt32 (y2 - y1) →
        (grpToRecCoordinates x1 y1 x2 y2).y2 = y2 - y1
        ∧ (grpToRecCoordinates x1 y1 x2 y2).y1
            + (grpToRecCoordinates x1 y1 x2 y2).y2 = y2) := by
  unfold IsInt32 at *
  refine ⟨rfl, rfl, rfl, rfl, ?_, ?_, ?_, ?_⟩
  · simp only [grpToRecCoordinates, wrapInt32]; omega
  · simp only [grpToRecCoordinates, wrapInt32]; omega
  · intro h; simp only [grpToRecCoordinates, wrapInt32]; omega
  · intro h; simp only [grpToRecCoordinates, wrapInt32]; omega

/-- C18 at concrete coordinates: the rectangle from (10, 20) to (110, 70) is
100 wide and 50 high. -/
theorem grpToRecCoordinates_width_height_witness :
    IsInt32 110 ∧ IsInt32 70
    ∧ (grpToRecCoordinates 10 20 110 70).x2 = 100
    ∧ (grpToRecCoordinates 10 20 110 70).y2 = 50
    ∧ (grpToRecCoordinates 10 20 110 70).x1 + (grpToRecCoordinates 10 20 110 70).x2 = 110 := by
  have h110 : IsInt32 110 := by unfold IsInt32; omega
  have h70 : IsInt32 70 := by unfold IsInt32; omega
  have h := grpToRecCoordinates_width_height 10 20 110 70 h110 h70
  have hw := h.2.2.2.2.2.2.1 (by unfold IsInt32; omega)
  have hh := h.2.2.2.2.2.2.2 (by unfold IsInt32; omega)
  exact ⟨h110, h70, by simpa using hw.1, by simpa using hh.1, hw.2⟩

/-! ## Message speed -/

/-- C19 fails on the code where plain `char` is signed: `m_messageSpeed` is a
`char`, so `setMessageSpeed(200)` stores -56 and `messageSpeed()` returns -56,
not 200. With a signed `char` the value set is read back exactly for 0 to 127,
and for 128 to 255 it is read back 256 too low; with an unsigned `char` it is
read back for the whole documented range 0 to 255. -/
theorem messageSpeed_signed_char_loses_upper_range :
    (TextSystem.setMessageSpeed true ⟨0⟩ 200).messageSpeed = -56
    ∧ (∀ (sys : TextSystem) (i : Int), 0 ≤ i → i ≤ 127 →
        (TextSystem.setMessageSpeed true sys i).messageSpeed = i)
    ∧ (∀ (sys : TextSystem) (i : Int), 128 ≤ i → i ≤ 255 →
        (TextSystem.setMessageSpeed true sys i).messageSpeed = i - 256)
    ∧ (∀ (sys : TextSystem) (i : Int), 0 ≤ i → i ≤ 255 →
        (TextSystem.setMessageSpeed false sys i).messageSpeed = i) := by
  refine ⟨by decide, ?_, ?_, ?_⟩
  · intro sys i h0 h1
    simp only [TextSystem.setMessageSpeed, TextSystem.messageSpeed, intToChar, if_true]
    omega
  · intro sys i h0 h1
    simp only [TextSystem.setMessageSpeed, TextSystem.messageSpeed, intToChar, if_true]
    omega
  · intro sys i h0 h1
    simp only [TextSystem.setMessageSpeed, TextSystem.messageSpeed, intToChar]
    simp only [Bool.false_eq_true, if_false]
    omega

/-! ## Special-case operations -/

/-- C14: `RLOp_SpecialCase::DispatchFunction(machine, f)` is exactly one call of
the handler `operator()(machine, f)` on the caller's machine and the same raw
command element: nothing is parsed, checked or converted, and nothing moves
the instruction pointer besides the handler. Whatever the instruction pointer
of the machine is, its value after the call is the one the handler left; after
a handler that jumps to `T` it is `T`. -/
theorem SpecialCase_DispatchFunction_hands_raw_element_to_handler {Cmd : Type}
    (op : Mach → Cmd → Outcome Mach Exc) (machine : Mach) (f : Cmd) :
    RLOp_SpecialCase.DispatchFunction op machine f = op machine f
    ∧ ∀ (instruction_pointer : Mach → Int) (T : Int),
        instruction_pointer (op machine f).machine = T →
        instruction_pointer (RLOp_SpecialCase.DispatchFunction op machine f).machine = T :=
  ⟨rfl, fun _ _ h => h⟩

/-- C14 at a concrete jump: from instruction pointer 5, the jump to 42 leaves
the instruction pointer at 42. -/
theorem SpecialCase_DispatchFunction_hands_raw_element_to_handler_witness :
    id (Sample.jump 5 42).machine = 42
    ∧ id (RLOp_SpecialCase.DispatchFunction Sample.jump 5 42).machine = 42 :=
  ⟨rfl,
    (SpecialCase_DispatchFunction_hands_raw_element_to_handler Sample.jump 5 42).2 id 42
      rfl⟩

/-- C15: for an operation with three Constant-Integer descriptors and tokens
that encode the integer constants `a`, `b`, `c`, `ParseParameters` on the three
tokens returns normally with the cursor at 3 and the three expressions, and
`Dispatch` on these expressions is exactly one call of the handler, on the
caller's machine and with the operands `a`, `b`, `c` in that order. -/
theorem IntConstant_parse_then_dispatch (lib : Collaborators Mach Piece Exc)
    (ta tb tc : String) (ea eb ec : Piece) (a b c : Int)
    (ha : EncodesInt lib ta ea a) (hb : EncodesInt lib tb eb b)
    (hc : EncodesInt lib tc ec c) :
    RLOpcode.ParseParameters [IntConstant_T lib, IntConstant_T lib, IntConstant_T lib]
        [ta, tb, tc] []
      = ⟨3, [ea, eb, ec], .ok ()⟩
    ∧ ∀ (op : Mach → List Value → Outcome Mach Exc) (machine : Mach),
        RLOpcode.Dispatch [IntConstant_T lib, IntConstant_T lib, IntConstant_T lib]
            op machine [ea, eb, ec]
          = op machine [Value.int a, Value.int b, Value.int c] := by
  obtain ⟨ha1, ha2⟩ := ha
  obtain ⟨hb1, hb2⟩ := hb
  obtain ⟨hc1, hc2⟩ := hc
  refine ⟨?_, ?_⟩
  · simp [RLOpcode.ParseParameters, ParseEachParameter, IntConstant_T, ha1, hb1, hc1]
  · intro op machine
    simp [RLOpcode.Dispatch, RLOpcode.DispatchImpl, getDataPack, IntConstant_T, ha2, hb2,
      hc2, make_indexes, make_indexes_impl]

/-- C15 at the tokens `"1"`, `"2"`, `"3"`: the handler is called with 1, 2, 3. -/
theorem IntConstant_parse_then_dispatch_witness :
    EncodesInt Sample.lib "1" 1 1 ∧ EncodesInt Sample.lib "2" 2 2
    ∧ EncodesInt Sample.lib "3" 3 3
    ∧ RLOpcode.ParseParameters
        [IntConstant_T Sample.lib, IntConstant_T Sample.lib, IntConstant_T Sample.lib]
        ["1", "2", "3"] []
      = ⟨3, [1, 2, 3], .ok ()⟩
    ∧ ∀ (op : Int → List Value → Outcome Int String) (machine : Int),
        RLOpcode.Dispatch
            [IntConstant_T Sample.lib, IntConstant_T Sample.lib, IntConstant_T Sample.lib]
            op machine [1, 2, 3]
          = op machine [Value.int 1, Value.int 2, Value.int 3] := by
  have h1 : EncodesInt Sample.lib "1" 1 1 := ⟨rfl, fun _ => rfl⟩
  have h2 : EncodesInt Sample.lib "2" 2 2 := ⟨rfl, fun _ => rfl⟩
  have h3 : EncodesInt Sample.lib "3" 3 3 := ⟨rfl, fun _ => rfl⟩
  exact ⟨h1, h2, h3, IntConstant_parse_then_dispatch Sample.lib "1" "2" "3" 1 2 3 1 2 3
    h1 h2 h3⟩

/-! ## Store operations -/

/-- C16: a store operation whose evaluations succeed and whose handler returns
the integer `r` ends with the store register holding `r`: `Dispatch` returns
normally and leaves the machine the handler left with `r` written to the store
register. Its parse is the parse of the void flavour, and its handler is called
on the same machine and tuple as the handler of the void flavour. -/
theorem RLOp_Store_writes_returned_value {Val : Type}
    (set_store_register : Mach → Int → Mach) (store_register : Mach → Int)
    (hstore : ∀ m v, store_register (set_store_register m v) = v)
    (Args : List (Descriptor Mach Val Piece Exc))
    (op : Mach → List Val → StoreResult Mach Exc) (machine : Mach)
    (parameters : List Piece) (tuple : List Val) (after : Mach) (r : Int)
    (heval : (getDataPack Args machine parameters 0).result = .ok tuple)
    (hop : op (getDataPack Args machine parameters 0).machine tuple = ⟨after, .ok r⟩) :
    RLOp_Store.Dispatch set_store_register Args op machine parameters
      = ⟨set_store_register after r, .ok ()⟩
    ∧ store_register
        (RLOp_Store.Dispatch set_store_register Args op machine parameters).machine = r
    ∧ (∀ (input : List String) (output : List Piece),
        RLOp_Store.ParseParameters Args input output
          = RLOpcode.ParseParameters Args input output)
    ∧ (∀ void_op : Mach → List Val → Outcome Mach Exc,
        RLOpcode.Dispatch Args void_op machine parameters
          = void_op (getDataPack Args machine parameters 0).machine tuple) := by
  have hlen := getDataPack_length Args machine parameters 0 tuple heval
  have htuple : (make_indexes Args).filterMap (fun I => tuple[I]?) = tuple := by
    rw [make_indexes_eq_range, ← hlen, filterMap_range_getElem?]
  have hD : RLOp_Store.Dispatch set_store_register Args op machine parameters
      = ⟨set_store_register after r, .ok ()⟩ := by
    simp only [RLOp_Store.Dispatch, heval, htuple, hop]
  refine ⟨hD, ?_, fun _ _ => rfl, ?_⟩
  · rw [hD]
    exact hstore after r
  · intro void_op
    simp only [RLOpcode.Dispatch, heval, RLOpcode.DispatchImpl, htuple]

/-- C16 at `Sum3` on the expressions of `"1"`, `"2"`, `"3"`: the store register
ends as 6. -/
theorem RLOp_Store_writes_returned_value_witness :
    (∀ (m v : Int), id ((fun (_ : Int) (w : Int) => w) m v) = v)
    ∧ (getDataPack
        [IntConstant_T Sample.lib, IntConstant_T Sample.lib, IntConstant_T Sample.lib]
        0 [1, 2, 3] 0).result = .ok [Value.int 1, Value.int 2, Value.int 3]
    ∧ RLOp_Store.Dispatch (fun _ w => w)
        [IntConstant_T Sample.lib, IntConstant_T Sample.lib, IntConstant_T Sample.lib]
        Sample.Sum3 0 [1, 2, 3]
      = ⟨6, .ok ()⟩ :=
  ⟨fun _ _ => rfl, rfl,
    (RLOp_Store_writes_returned_value (fun _ w => w) id (fun _ _ => rfl)
      [IntConstant_T Sample.lib, IntConstant_T Sample.lib, IntConstant_T Sample.lib]
      Sample.Sum3 0 [1, 2, 3] [Value.int 1, Value.int 2, Value.int 3] 0 6 rfl rfl).1⟩

/-! ## Repeated groups -/

/-- C17: let the expression under the cursor be a count expression standing
for `N`, and let the `N` element groups after it evaluate, one after the other
with the wrapped descriptor `X`, to the values `vs`. Then `Argc_T<X>::getData`
returns the sequence `vs`; it has exactly `N` elements, and element `i` is the
value `X` returned on the state that the count and the groups before it left:
source order. With the count 0 the sequence is empty, the cursor has passed the
count only and the machine is untouched. The parse of the group consumes the
count token and then runs `X` `N` times; with the count 0 it consumes the count
token alone. -/
theorem Argc_T_evaluates_count_groups_in_order (lib : Collaborators Mach Piece Exc)
    (X : Descriptor Mach Value Piece Exc) (machine : Mach) (p : List Piece)
    (position : Nat) (c : Piece) (N : Nat) (vs : List Value)
    (hc : p[position]? = some c) (hN : lib.count c = .ok N)
    (hvs : (getDataPack (List.replicate N X) machine p
        ((position + 1) % 4294967296)).result = .ok vs) :
    ((Argc_T lib X).getData machine p position).result = .ok (Value.vec vs)
    ∧ vs.length = N
    ∧ (∀ i, i < N → ∃ v, vs[i]? = some v ∧
        (X.getData
            (getDataPack (List.replicate i X) machine p
              ((position + 1) % 4294967296)).machine p
            (getDataPack (List.replicate i X) machine p
              ((position + 1) % 4294967296)).position).result = .ok v)
    ∧ (N = 0 → vs = []
        ∧ ((Argc_T lib X).getData machine p position).position
            = (position + 1) % 4294967296
        ∧ ((Argc_T lib X).getData machine p position).machine = machine)
    ∧ (∀ (q : Nat) (input : List String) (output : List Piece) (t : String),
        input[q]? = some t → lib.GetData t = .ok c →
        (Argc_T lib X).ParseParameters q input output
          = ParseEachParameter (List.replicate N X) ((q + 1) % 4294967296) input
              (output ++ [c]))
    ∧ (N = 0 → ∀ (q : Nat) (input : List String) (output : List Piece) (t : String),
        input[q]? = some t → lib.GetData t = .ok c →
        (Argc_T lib X).ParseParameters q input output
          = ⟨(q + 1) % 4294967296, output ++ [c], .ok ()⟩) := by
  have hlen : vs.length = N := by
    have h := getDataPack_length _ _ _ _ _ hvs
    simpa using h
  have hparse : ∀ (q : Nat) (input : List String) (output : List Piece) (t : String),
      input[q]? = some t → lib.GetData t = .ok c →
      (Argc_T lib X).ParseParameters q input output
        = ParseEachParameter (List.replicate N X) ((q + 1) % 4294967296) input
            (output ++ [c]) := by
    intro q input output t ht hd
    simp only [Argc_T, ht, hd, hN]
  refine ⟨?_, hlen, ?_, ?_, hparse, ?_⟩
  · simp only [Argc_T, hc, hN, hvs]
  · intro i hi
    have hi2 : i < (List.replicate N X).length := by simpa using hi
    obtain ⟨v, hv, hget⟩ := getDataPack_component (List.replicate N X) machine p
      ((position + 1) % 4294967296) vs hvs i hi2
    refine ⟨v, hv, ?_⟩
    have htake : (List.replicate N X).take i = List.replicate i X := by
      rw [List.take_replicate, Nat.min_eq_left (Nat.le_of_lt hi)]
    have hX : (List.replicate N X).get ⟨i, hi2⟩ = X := by simp
    rw [htake, hX] at hget
    exact hget
  · intro h0
    subst h0
    have hnil : vs = [] := List.length_eq_zero.mp hlen
    refine ⟨hnil, ?_, ?_⟩
    · simp [Argc_T, hc, hN, getDataPack]
    · simp [Argc_T, hc, hN, getDataPack]
  · intro h0 q input output t ht hd
    subst h0
    rw [hparse q input output t ht hd]
    rfl

/-- C17 at concrete groups of constant integers: the count 3 followed by 10,
20, 30 evaluates to the three values in source order; the count 0 evaluates to
the empty sequence and leaves the cursor just after the count. -/
theorem Argc_T_evaluates_count_groups_in_order_witness :
    ((Argc_T Sample.lib (IntConstant_T Sample.lib)).getData 0 [3, 10, 20, 30] 0).result
      = .ok (Value.vec [Value.int 10, Value.int 20, Value.int 30])
    ∧ [Value.int 10, Value.int 20, Value.int 30].length = 3
    ∧ ((Argc_T Sample.lib (IntConstant_T Sample.lib)).getData 0 [0, 10, 20] 0).result
      = .ok (Value.vec [])
    ∧ ((Argc_T Sample.lib (IntConstant_T Sample.lib)).getData 0 [0, 10, 20] 0).position = 1
    ∧ (Argc_T Sample.lib (IntConstant_T Sample.lib)).ParseParameters 0
        ["3", "10", "20", "30"] []
      = ⟨4, [3, 10, 20, 30], .ok ()⟩
    ∧ (Argc_T Sample.lib (IntConstant_T Sample.lib)).ParseParameters 0 ["0", "10"] []
      = ⟨1, [0], .ok ()⟩ := by
  have h3 := Argc_T_evaluates_count_groups_in_order Sample.lib (IntConstant_T Sample.lib)
    0 [3, 10, 20, 30] 0 3 3 [Value.int 10, Value.int 20, Value.int 30] rfl rfl rfl
  have h0 := Argc_T_evaluates_count_groups_in_order Sample.lib (IntConstant_T Sample.lib)
    0 [0, 10, 20] 0 0 0 [] rfl rfl rfl
  exact ⟨h3.1, h3.2.1, h0.1, (h0.2.2.2.1 rfl).2.1, rfl,
    h0.2.2.2.2.2 rfl 0 ["0", "10"] [] "0" rfl rfl⟩

/-! ## The 26-slot parser and the variadic parser -/

/-- C21: for at most 26 descriptors `A1, ..., Ak`, every input and every
initial output, `RLOp_NormalOperation<A1, ..., Ak>::ParseParameters`, whose
remaining slots default to `Empty_T`, ends exactly as
`RLOpcode<A1, ..., Ak>::ParseParameters` does: same output expression list,
same cursor, same outcome. With `k = 0` this is the all-`Empty_T`
specialization; and instantiating the slots with `Empty_T` only gives what the
specialization gives. -/
theorem NormalOperation_parse_agrees_with_RLOpcode {Mach Piece Exc : Type}
    (Args : List (Descriptor Mach Value Piece Exc)) (input : List String)
    (output : List Piece) (h : Args.length ≤ 26) :
    RLOp_NormalOperation.ParseParameters_defaulted Args input output
      = RLOpcode.ParseParameters Args input output
    ∧ (RLOp_NormalOperation.ParseParameters_defaulted Args input output).output
      = (RLOpcode.ParseParameters Args input output).output
    ∧ (RLOp_NormalOperation.ParseParameters_Empty input output : ParseResult Piece Exc)
      = RLOpcode.ParseParameters ([] : List (Descriptor Mach Value Piece Exc)) input output
    ∧ ∀ k, k ≤ 26 →
        RLOp_NormalOperation.ParseParameters_defaulted
            (List.replicate k (Empty_T : Descriptor Mach Value Piece Exc)) input output
          = RLOp_NormalOperation.ParseParameters_Empty input output := by
  have hmain : ∀ Args : List (Descriptor Mach Value Piece Exc), Args.length ≤ 26 →
      RLOp_NormalOperation.ParseParameters_defaulted Args input output
        = RLOpcode.ParseParameters Args input output := by
    intro Args h
    cases Args with
    | nil => rfl
    | cons A rest =>
      have hslots := map_getD_range (A :: rest) (Empty_T : Descriptor Mach Value Piece Exc)
        26 h
      simp only [RLOp_NormalOperation.ParseParameters_defaulted]
      rw [RLOp_NormalOperation.ParseParameters_eq_RLOpcode]
      have hlist : [(A :: rest).getD 0 Empty_T, (A :: rest).getD 1 Empty_T,
          (A :: rest).getD 2 Empty_T, (A :: rest).getD 3 Empty_T,
          (A :: rest).getD 4 Empty_T, (A :: rest).getD 5 Empty_T,
          (A :: rest).getD 6 Empty_T, (A :: rest).getD 7 Empty_T,
          (A :: rest).getD 8 Empty_T, (A :: rest).getD 9 Empty_T,
          (A :: rest).getD 10 Empty_T, (A :: rest).getD 11 Empty_T,
          (A :: rest).getD 12 Empty_T, (A :: rest).getD 13 Empty_T,
          (A :: rest).getD 14 Empty_T, (A :: rest).getD 15 Empty_T,
          (A :: rest).getD 16 Empty_T, (A :: rest).getD 17 Empty_T,
          (A :: rest).getD 18 Empty_T, (A :: rest).getD 19 Empty_T,
          (A :: rest).getD 20 Empty_T, (A :: rest).getD 21 Empty_T,
          (A :: rest).getD 22 Empty_T, (A :: rest).getD 23 Empty_T,
          (A :: rest).getD 24 Empty_T, (A :: rest).getD 25 Empty_T]
          = (List.range 26).map (fun i =>
              (A :: rest).getD i (Empty_T : Descriptor Mach Value Piece Exc)) := rfl
      rw [hlist, hslots]
      exact ParseEachParameter_append_Empty_T (A :: rest) _ 0 input output
  refine ⟨hmain Args h, by rw [hmain Args h], rfl, ?_⟩
  intro k hk
  rw [hmain _ (by simpa using hk)]
  induction k with
  | zero => rfl
  | succ k ih =>
    have ih := ih (Nat.le_of_succ_le hk)
    simpa [RLOpcode.ParseParameters, List.replicate_succ, ParseEachParameter, Empty_T,
      RLOp_NormalOperation.ParseParameters_Empty] using ih

/-- C21 at a concrete operation: two consuming descriptors in the first two
of the 26 slots, on three tokens. -/
theorem NormalOperation_parse_agrees_with_RLOpcode_witness :
    [Sample.Token, Sample.Token].length ≤ 26
    ∧ RLOp_NormalOperation.ParseParameters_defaulted [Sample.Token, Sample.Token]
        ["a", "b", "c"] ["z"]
      = RLOpcode.ParseParameters [Sample.Token, Sample.Token] ["a", "b", "c"] ["z"]
    ∧ (RLOp_NormalOperation.ParseParameters_defaulted [Sample.Token, Sample.Token]
        ["a", "b", "c"] ["z"]).output = ["z", "a", "b"] :=
  ⟨by decide,
    (NormalOperation_parse_agrees_with_RLOpcode [Sample.Token, Sample.Token]
      ["a", "b", "c"] ["z"] (by decide)).1, rfl⟩

/-! ## Replaying a page -/

section PageClaims

variable {World : Type}

/-- C22: `TextPage::replay(is_active_page)` calls `replayElement` on every
recorded element once, in the order of recording, with the same flag. Nothing
has been replayed at the start; element `k` is replayed, with the flag given to
`replay`, on the state that the elements before it left; `replay` ends with
the state after the last element. In one formula, `replay` is the left fold of
`replayElement` over the recorded elements. -/
theorem TextPage_replay_replays_each_element_in_order (ops : TextWindowOps World)
    (st : PageState World) (is_active_page : Bool) :
    replayStateAt ops st is_active_page 0 = st
    ∧ (∀ k (h : k < st.page.elements_to_replay_.length),
        replayStateAt ops st is_active_page (k + 1)
          = (st.page.elements_to_replay_.get ⟨k, h⟩).replayElement ops
              (replayStateAt ops st is_active_page k) is_active_page)
    ∧ TextPage.replay ops st is_active_page
      = replayStateAt ops st is_active_page st.page.elements_to_replay_.length
    ∧ TextPage.replay ops st is_active_page
      = st.page.elements_to_replay_.foldl
          (fun s e => e.replayElement ops s is_active_page) st := by
  refine ⟨rfl, ?_, ?_, ?_⟩
  · intro k h
    unfold replayStateAt
    rw [← List.take_concat_get st.page.elements_to_replay_ k h, List.concat_eq_append,
      for_each_replayElement_concat]
    rfl
  · simp [TextPage.replay, replayStateAt]
  · exact for_each_replayElement_eq_foldl ops _ st is_active_page

/-- C23: replaying records nothing. For every page state and flag,
`TextPage::replay` leaves `elements_to_replay_` and `number_of_chars_on_page_`
as they were: every element class replays through the `*_impl` member
functions, which reach the text window and at most set `in_ruby_gloss_`. -/
theorem TextPage_replay_keeps_record (ops : TextWindowOps World)
    (st : PageState World) (is_active_page : Bool) :
    (TextPage.replay ops st is_active_page).page.elements_to_replay_
      = st.page.elements_to_replay_
    ∧ (TextPage.replay ops st is_active_page).page.number_of_chars_on_page_
      = st.page.number_of_chars_on_page_ :=
  ⟨(for_each_replayElement_keeps_record ops _ st is_active_page).1,
    (for_each_replayElement_keeps_record ops _ st is_active_page).2.1⟩

/-! ## Recording characters -/

/-- C24: when the window does not render the character, `TextPage::character`
returns false and leaves the recorded element list and the character count as
they were; when the window renders it, `character` returns true and the count
is incremented by one, in `int` arithmetic: it grows by exactly one whenever
the incremented value is an `int`. -/
theorem TextPage_character_counts_rendered_characters (ops : TextWindowOps World)
    (st : PageState World) (current next : String) :
    ((TextPage.character_impl ops st current next).2 = false →
        (TextPage.character ops st current next).result = .ok false
        ∧ (TextPage.character ops st current next).page.elements_to_replay_
          = st.page.elements_to_replay_
        ∧ (TextPage.character ops st current next).page.number_of_chars_on_page_
          = st.page.number_of_chars_on_page_)
    ∧ ((TextPage.character_impl ops st current next).2 = true →
        (TextPage.character ops st current next).result = .ok true
        ∧ (TextPage.character ops st current next).page.number_of_chars_on_page_
          = wrapInt32 (st.page.number_of_chars_on_page_ + 1)
        ∧ (IsInt32 (st.page.number_of_chars_on_page_ + 1) →
            (TextPage.character ops st current next).page.number_of_chars_on_page_
              = st.page.number_of_chars_on_page_ + 1)) := by
  refine ⟨?_, ?_⟩
  · intro h
    rw [character_not_rendered ops st current next h]
    exact ⟨rfl, rfl, rfl⟩
  · intro h
    have happ : ∃ appended, appendToLastTextElement
        (pushTextElementIfNeeded st.page.elements_to_replay_) current next
        = .ok appended := by
      rcases appendToLastTextElement_push st.page.elements_to_replay_ current next with
        ⟨pre, s, n, _, h2⟩ | ⟨_, h2⟩
      · exact ⟨_, h2⟩
      · exact ⟨_, h2⟩
    obtain ⟨appended, happ⟩ := happ
    rw [character_rendered ops st current next appended h happ]
    refine ⟨rfl, rfl, ?_⟩
    intro hint
    unfold IsInt32 at hint
    simp only [wrapInt32]
    omega

/-- C24 at a concrete window: on a fresh page the character `a` is rendered
and counted; once the window shows four entries the character is not rendered
and the page stays as it was. -/
theorem TextPage_character_counts_rendered_characters_witness :
    (TextPage.character_impl Sample.window ⟨[], TextPage.new 0⟩ "a" "b").2 = true
    ∧ (TextPage.character Sample.window ⟨[], TextPage.new 0⟩ "a" "b").result = .ok true
    ∧ (TextPage.character Sample.window ⟨[], TextPage.new 0⟩
        "a" "b").page.number_of_chars_on_page_ = 1
    ∧ (TextPage.character_impl Sample.window ⟨["1", "2", "3", "4"], TextPage.new 0⟩
        "a" "b").2 = false
    ∧ (TextPage.character Sample.window ⟨["1", "2", "3", "4"], TextPage.new 0⟩
        "a" "b").page = TextPage.new 0 := by
  have h1 := (TextPage_character_counts_rendered_characters Sample.window
    ⟨[], TextPage.new 0⟩ "a" "b").2 rfl
  have h2 := (TextPage_character_counts_rendered_characters Sample.window
    ⟨["1", "2", "3", "4"], TextPage.new 0⟩ "a" "b").1 rfl
  exact ⟨rfl, h1.1, by decide, rfl, by decide⟩

/-- C25: consecutive rendered characters are recorded in one text element.
After a run of `n ≥ 1` calls `character(c_i, next_i)` that all returned true,
the last recorded element is a text element whose characters end with
`c_1 ... c_n` and whose next character is `next_n`. When the list ended with a
text element before the run, the list has not grown and only that element has
changed; otherwise the list is the old list followed by one text element that
holds exactly `c_1 ... c_n`. -/
theorem TextPage_consecutive_characters_coalesce (ops : TextWindowOps World)
    (calls : List (String × String)) (st : PageState World) (hne : calls ≠ [])
    (hall : ∀ r ∈ (TextPage.characters ops calls st).2, r = .ok true) :
    (∃ s0, (TextPage.characters ops calls st).1.page.elements_to_replay_.getLast?
        = some (.TextTextPageElement (s0 ++ String.join (calls.map (·.1)))
            (calls.getLast hne).2))
    ∧ ((st.page.elements_to_replay_.getLast?.map TextPageElement.isTextElement)
          = some true →
        (TextPage.characters ops calls st).1.page.elements_to_replay_.length
            = st.page.elements_to_replay_.length
          ∧ (TextPage.characters ops calls st).1.page.elements_to_replay_.dropLast
            = st.page.elements_to_replay_.dropLast)
    ∧ ((st.page.elements_to_replay_.getLast?.map TextPageElement.isTextElement)
          ≠ some true →
        (TextPage.characters ops calls st).1.page.elements_to_replay_
          = st.page.elements_to_replay_
            ++ [.TextTextPageElement (String.join (calls.map (·.1)))
                (calls.getLast hne).2]) := by
  rcases pushTextElementIfNeeded_last st.page.elements_to_replay_ with
    ⟨pre, s, n, hpre, _⟩ | ⟨hlast, hpush⟩
  · have hfinal := characters_on_text_element ops calls st pre s n hpre hall
    rw [foldl_append_chars, foldl_last_next calls hne] at hfinal
    refine ⟨⟨s, by rw [hfinal, List.getLast?_concat]⟩, ?_, ?_⟩
    · intro _
      rw [hfinal, hpre]
      simp
    · intro hnot
      rw [hpre] at hnot
      simp [TextPageElement.isTextElement] at hnot
  · cases calls with
    | nil => exact absurd rfl hne
    | cons call rest =>
      have hall2 := hall
      simp only [TextPage.characters, List.mem_cons, forall_eq_or_imp] at hall2
      obtain ⟨hhead, hrest⟩ := hall2
      have hrendered := character_rendered_of_result ops st call.1 call.2 hhead
      have happ : appendToLastTextElement
          (pushTextElementIfNeeded st.page.elements_to_replay_) call.1 call.2
          = .ok (st.page.elements_to_replay_ ++ [.TextTextPageElement call.1 call.2]) := by
        rw [hpush, appendToLastTextElement_concat, String.empty_append]
      have hchar := character_rendered ops st call.1 call.2 _ hrendered happ
      rw [hchar] at hrest
      have hfinal := characters_on_text_element ops rest _ st.page.elements_to_replay_
        call.1 call.2 rfl hrest
      have hwhole : (TextPage.characters ops (call :: rest) st).1.page.elements_to_replay_
          = st.page.elements_to_replay_
            ++ [.TextTextPageElement (String.join ((call :: rest).map (·.1)))
                ((call :: rest).getLast hne).2] := by
        have h1 : (TextPage.characters ops (call :: rest) st).1
            = (TextPage.characters ops rest
                ⟨(TextPage.character ops st call.1 call.2).world,
                  (TextPage.character ops st call.1 call.2).page⟩).1 := rfl
        rw [h1, hchar, hfinal]
        have hchars : rest.foldl (fun acc c => acc ++ c.1) call.1
            = String.join ((call :: rest).map (·.1)) := by
          have h2 := foldl_append_chars (call :: rest) ""
          simp only [List.foldl_cons, String.empty_append] at h2
          exact h2
        have hnext : rest.foldl (fun _ c => c.2) call.2
            = ((call :: rest).getLast hne).2 := by
          have h3 := foldl_last_next (call :: rest) hne ""
          simpa only [List.foldl_cons] using h3
        rw [hchars, hnext]
      refine ⟨⟨"", by rw [hwhole, List.getLast?_concat, String.empty_append]⟩, ?_, ?_⟩
      · intro hyes
        exact absurd hyes hlast
      · intro _
        exact hwhole

/-- C25 at a concrete page: on a fresh page, whose only element is not a text
element, the characters `a`, `b`, `c` are recorded in one new text element. -/
theorem TextPage_consecutive_characters_coalesce_witness :
    (∀ r ∈ (TextPage.characters Sample.window [("a", "b"), ("b", "c"), ("c", "")]
        ⟨[], TextPage.new 0⟩).2, r = .ok true)
    ∧ (TextPage.characters Sample.window [("a", "b"), ("b", "c"), ("c", "")]
        ⟨[], TextPage.new 0⟩).1.page.elements_to_replay_
      = [.SetToRightStartingColorElement, .TextTextPageElement "abc" ""] := by
  have hall : ∀ r ∈ (TextPage.characters Sample.window
      [("a", "b"), ("b", "c"), ("c", "")] ⟨[], TextPage.new 0⟩).2, r = .ok true := by
    intro r hr
    have hlist : (TextPage.characters Sample.window
        [("a", "b"), ("b", "c"), ("c", "")] ⟨[], TextPage.new 0⟩).2
        = [.ok true, .ok true, .ok true] := rfl
    rw [hlist] at hr
    simp only [List.mem_cons, List.mem_singleton, List.not_mem_nil, or_false, or_self] at hr
    exact hr
  have h := (TextPage_consecutive_characters_coalesce Sample.window
    [("a", "b"), ("b", "c"), ("c", "")] ⟨[], TextPage.new 0⟩ (by simp) hall).2.2
    (by decide)
  refine ⟨hall, ?_⟩
  rw [h]
  decide

/-- C26: in `TextPage::character` the cast of the last element to
`TextTextPageElement` never fails. For every page state, the empty element
list included, the list at the point of the cast is non-empty and its last
element is a text element, the append through the cast goes through, and
`character` returns a flag: neither `back()` of an empty list nor
`std::bad_cast` occurs. -/
theorem TextPage_character_cast_succeeds (ops : TextWindowOps World)
    (st : PageState World) (current next : String) :
    pushTextElementIfNeeded st.page.elements_to_replay_ ≠ []
    ∧ (∃ last, (pushTextElementIfNeeded st.page.elements_to_replay_).getLast? = some last
        ∧ last.isTextElement = true)
    ∧ (∃ appended, appendToLastTextElement
        (pushTextElementIfNeeded st.page.elements_to_replay_) current next = .ok appended)
    ∧ (∃ rendered, (TextPage.character ops st current next).result = .ok rendered)
    ∧ pushTextElementIfNeeded [] = [.TextTextPageElement "" ""] := by
  have hlast : ∃ pre s n, pushTextElementIfNeeded st.page.elements_to_replay_
      = pre ++ [.TextTextPageElement s n] := by
    rcases pushTextElementIfNeeded_last st.page.elements_to_replay_ with
      ⟨pre, s, n, hpre, hpush⟩ | ⟨_, hpush⟩
    · exact ⟨pre, s, n, hpush.trans hpre⟩
    · exact ⟨_, "", "", hpush⟩
  obtain ⟨pre, s, n, hpush⟩ := hlast
  have happ : appendToLastTextElement
      (pushTextElementIfNeeded st.page.elements_to_replay_) current next
      = .ok (pre ++ [.TextTextPageElement (s ++ current) next]) := by
    rw [hpush, appendToLastTextElement_concat]
  refine ⟨?_, ?_, ⟨_, happ⟩, ?_, rfl⟩
  · rw [hpush]
    simp
  · exact ⟨.TextTextPageElement s n, by rw [hpush, List.getLast?_concat], rfl⟩
  · cases hr : (TextPage.character_impl ops st current next).2 with
    | false =>
      exact ⟨false, by rw [character_not_rendered ops st current next hr]⟩
    | true =>
      exact ⟨true, by rw [character_rendered ops st current next _ hr happ]⟩

end PageClaims

end Claims

end RLVM
